import Mathlib

/-!
Verification of the concurrent state-root computation engine
(`crates/engine/tree/src/tree/root.rs`).

The Rust code is shallowly embedded: `BTreeMap<u64, V>` / `HashMap<K, V>`
become association lists with unique keys, `u64` / `B256` / `U256` become
`Nat`, channels become explicit message processing, and the stateful
structs (`ProofSequencer`, `MultiProofManager`, the `StateRootTask`
coordinator loop) become pure state-transition functions.
-/

set_option maxHeartbeats 1000000

/-! ### Association-list model of `BTreeMap` / `HashMap`
Keys are `Nat` (modelling `u64` sequence numbers and `B256` hashes).
All maps built by the embedded code keep their keys duplicate-free.
-/

/-- The keys of an association list. -/
def mapKeys {V : Type} (l : List (Nat × V)) : List Nat :=
  l.map Prod.fst

/-- `BTreeMap::contains_key`. -/
def containsKey {V : Type} (l : List (Nat × V)) (k : Nat) : Bool :=
  l.any fun p => p.1 == k

/-- `BTreeMap::get`: the value bound to `k`, if any. -/
def lookupKey {V : Type} (l : List (Nat × V)) (k : Nat) : Option V :=
  (l.find? fun p => p.1 == k).map Prod.snd

/-- `BTreeMap::insert`: overwrite the binding for `k` if present,
otherwise add it. -/
def insertKey {V : Type} (l : List (Nat × V)) (k : Nat) (v : V) : List (Nat × V) :=
  if containsKey l k then l.map fun p => if p.1 == k then (k, v) else p
  else l ++ [(k, v)]

/-- `BTreeMap::remove` (the resulting map): drop the binding for `k`. -/
def eraseKey {V : Type} (l : List (Nat × V)) (k : Nat) : List (Nat × V) :=
  l.filter fun p => p.1 != k

/-! ### `ProofSequencer`
Embeds `ProofSequencer` (root.rs lines 220-283).  The update type is kept
generic: the coordinator instantiates it with `SparseTrieUpdate`.
-/

/-- `ProofSequencer`: handle to track proof calculation ordering. -/
structure ProofSequencer (U : Type) where
  /-- The next proof sequence number to be produced. -/
  next_sequence : Nat := 0
  /-- The next sequence number expected to be delivered. -/
  next_to_deliver : Nat := 0
  /-- Buffer for out-of-order proofs and corresponding state updates. -/
  pending_proofs : List (Nat × U) := []
deriving DecidableEq, Repr

/-- `ProofSequencer::new`. -/
def ProofSequencer.new (U : Type) : ProofSequencer U := {}

/-- `ProofSequencer::next_sequence`: gets the next sequence number and
increments the counter. -/
def ProofSequencer.nextSequence {U : Type} (s : ProofSequencer U) :
    Nat × ProofSequencer U :=
  (s.next_sequence, { s with next_sequence := s.next_sequence + 1 })

/-- The `while let Some(pending) = self.pending_proofs.remove(&current_sequence)`
loop of `add_proof`, with explicit fuel (the initial buffer length bounds the
number of removals, so `collectConsecutive` below always supplies enough). -/
def collectGo {U : Type} (fuel : Nat) (l : List (Nat × U)) (cur : Nat) :
    List U × List (Nat × U) :=
  match fuel with
  | 0 => ([], l)
  | fuel + 1 =>
    match lookupKey l cur with
    | none => ([], l)
    | some v =>
      let rest := collectGo fuel (eraseKey l cur) (cur + 1)
      (v :: rest.1, rest.2)

/-- Collect the consecutive run of buffered updates starting at `cur`. -/
def collectConsecutive {U : Type} (l : List (Nat × U)) (cur : Nat) :
    List U × List (Nat × U) :=
  collectGo l.length l cur

/-- `ProofSequencer::add_proof`: adds a proof with the corresponding state
update and returns all sequential proofs and state updates if we have a
continuous sequence. -/
def ProofSequencer.add_proof {U : Type} (s : ProofSequencer U)
    (sequence : Nat) (update : U) : List U × ProofSequencer U :=
  let pending :=
    if s.next_to_deliver ≤ sequence then insertKey s.pending_proofs sequence update
    else s.pending_proofs
  -- return early if we don't have the next expected proof
  if containsKey pending s.next_to_deliver = false then
    ([], { s with pending_proofs := pending })
  else
    let res := collectConsecutive pending s.next_to_deliver
    (res.1, { s with
      pending_proofs := res.2,
      next_to_deliver := s.next_to_deliver + res.1.length })

/-- `ProofSequencer::has_pending`: true if we still have pending proofs. -/
def ProofSequencer.has_pending {U : Type} (s : ProofSequencer U) : Bool :=
  !s.pending_proofs.isEmpty

/-- One call on a `ProofSequencer` (used to describe reachable states). -/
inductive SeqOp (U : Type) where
  | nextSeq : SeqOp U
  | addProof (sequence : Nat) (update : U) : SeqOp U
  | hasPending : SeqOp U
deriving DecidableEq, Repr

/-- Apply one call to the sequencer state. -/
def SeqOp.apply {U : Type} (s : ProofSequencer U) : SeqOp U → ProofSequencer U
  | .nextSeq => s.nextSequence.2
  | .addProof sequence update => (s.add_proof sequence update).2
  | .hasPending => s

/-- The sequencer state reached from `s` after a sequence of calls. -/
def runSeqOps {U : Type} (s : ProofSequencer U) (ops : List (SeqOp U)) :
    ProofSequencer U :=
  ops.foldl SeqOp.apply s

/-- Invariant on a `ProofSequencer` state: the buffered keys are unique and
all lie strictly above `next_to_deliver`. -/
def SeqInv {U : Type} (s : ProofSequencer U) : Prop :=
  (mapKeys s.pending_proofs).Nodup ∧
  ∀ m ∈ mapKeys s.pending_proofs, s.next_to_deliver < m

/-- Feed `add_proof` with the canonical update `u k` for each sequence number
`k` in `l`, in that order, concatenating everything the sequencer returns. -/
def feedAll {U : Type} (u : Nat → U) :
    ProofSequencer U → List Nat → List U × ProofSequencer U
  | s, [] => ([], s)
  | s, k :: rest =>
    let r1 := s.add_proof k (u k)
    let r2 := feedAll u r1.2 rest
    (r1.1 ++ r2.1, r2.2)

/-- Sequencer state after the distinct sequence numbers in `F` have been fed
with updates `u k`: the buffer holds exactly the fed numbers at or above
`next_to_deliver` (with their canonical updates), and every number below
`next_to_deliver` has been fed while `next_to_deliver` itself has not. -/
def SeqFeedInv {U : Type} (u : Nat → U) (F : List Nat) (s : ProofSequencer U) : Prop :=
  (mapKeys s.pending_proofs).Nodup ∧
  (∀ p ∈ s.pending_proofs, p.2 = u p.1) ∧
  (∀ m, m ∈ mapKeys s.pending_proofs ↔ m ∈ F ∧ s.next_to_deliver ≤ m) ∧
  (∀ j, j < s.next_to_deliver → j ∈ F) ∧
  s.next_to_deliver ∉ F

/-! ### Shared data types
`B256` hashes, `U256` values and account infos are modelled as `Nat`.
`HashedPostState`, `HashedStorage`, `MultiProof` and `MultiProofTargets` are
external `reth_trie` types; their shapes follow the spec's data model (§3).
-/

/-- `HashedStorage` (modelled from the spec: a `wiped` flag and a mapping from
hashed slot key to slot value). -/
structure HashedStorage where
  wiped : Bool
  storage : List (Nat × Nat)
deriving DecidableEq, Repr

/-- `HashedStorage::new(wiped)`: empty slot map. -/
def HashedStorage.new (wiped : Bool) : HashedStorage :=
  { wiped := wiped, storage := [] }

/-- `HashedStorage::from_iter`. -/
def HashedStorage.from_iter (wiped : Bool) (slots : List (Nat × Nat)) : HashedStorage :=
  { wiped := wiped, storage := slots }

/-- Modelled from the spec: `HashedStorage::extend` (external `reth_trie`) —
an incoming wiped storage replaces the slot map, then incoming slots are
merged last-writer-wins. -/
def HashedStorage.extend (a b : HashedStorage) : HashedStorage :=
  let base := if b.wiped then HashedStorage.new true else a
  { base with storage := b.storage.foldl (fun m p => insertKey m p.1 p.2) base.storage }

/-- `HashedPostState` (modelled from the spec §3: hashed address to optional
account info — `none` means self-destructed — and hashed address to
`HashedStorage`). -/
structure HashedPostState where
  accounts : List (Nat × Option Nat)
  storages : List (Nat × HashedStorage)
deriving DecidableEq, Repr

/-- The empty `HashedPostState` (`HashedPostState::default`). -/
def HashedPostState.empty : HashedPostState :=
  { accounts := [], storages := [] }

instance : Inhabited HashedPostState := ⟨HashedPostState.empty⟩

/-- `HashedPostState::is_empty`. -/
def HashedPostState.is_empty (h : HashedPostState) : Bool :=
  h.accounts.isEmpty && h.storages.isEmpty

/-- Modelled from the spec: `HashedPostState::extend` (external `reth_trie`) —
merge the other state over this one, per-account storages merged with
`HashedStorage.extend`. -/
def HashedPostState.extend (a b : HashedPostState) : HashedPostState :=
  { accounts := b.accounts.foldl (fun m p => insertKey m p.1 p.2) a.accounts,
    storages := b.storages.foldl (fun m p =>
      match lookupKey m p.1 with
      | some ex => insertKey m p.1 (ex.extend p.2)
      | none => insertKey m p.1 p.2) a.storages }

/-- `MultiProof` (modelled from the spec §3: a map of trie-path prefixes to
encoded nodes for the account trie and one per touched storage trie). -/
structure MultiProof where
  account_subtree : List (Nat × Nat)
  storages : List (Nat × List (Nat × Nat))
deriving DecidableEq, Repr

/-- `MultiProof::default`. -/
def MultiProof.empty : MultiProof :=
  { account_subtree := [], storages := [] }

instance : Inhabited MultiProof := ⟨MultiProof.empty⟩

/-- `MultiProof::is_empty`. -/
def MultiProof.is_empty (m : MultiProof) : Bool :=
  m.account_subtree.isEmpty && m.storages.isEmpty

/-- Modelled from the spec: `MultiProof::extend` (external `reth_trie`) —
last-writer-wins merge of proof nodes. -/
def MultiProof.extend (a b : MultiProof) : MultiProof :=
  { account_subtree := b.account_subtree.foldl (fun m p => insertKey m p.1 p.2) a.account_subtree,
    storages := b.storages.foldl (fun m p => insertKey m p.1 p.2) a.storages }

/-- `SparseTrieUpdate` (root.rs lines 85-111). -/
structure SparseTrieUpdate where
  state : HashedPostState
  multiproof : MultiProof
deriving DecidableEq, Repr

instance : Inhabited SparseTrieUpdate := ⟨⟨HashedPostState.empty, MultiProof.empty⟩⟩

/-- `SparseTrieUpdate::is_empty`. -/
def SparseTrieUpdate.is_empty (u : SparseTrieUpdate) : Bool :=
  u.state.is_empty && u.multiproof.is_empty

/-- `SparseTrieUpdate::from_multiproof`. -/
def SparseTrieUpdate.from_multiproof (multiproof : MultiProof) : SparseTrieUpdate :=
  { state := HashedPostState.empty, multiproof := multiproof }

/-- `SparseTrieUpdate::extend`. -/
def SparseTrieUpdate.extend (a b : SparseTrieUpdate) : SparseTrieUpdate :=
  { state := a.state.extend b.state, multiproof := a.multiproof.extend b.multiproof }

/-- `MultiProofTargets`: hashed address to set of hashed slot keys. -/
abbrev MultiProofTargets := List (Nat × List Nat)

/-- `MultiProofTargets::is_empty`. -/
def MultiProofTargets.is_empty (t : MultiProofTargets) : Bool :=
  t.isEmpty

/-- Modelled from the spec: `MultiProofTargets::retain_difference` (external
`reth_trie`) — subtract `fetched` from `targets`: drop already-fetched slots,
and drop an account entry when the account was fetched and no new slots
remain. -/
def MultiProofTargets.retain_difference (targets fetched : MultiProofTargets) :
    MultiProofTargets :=
  targets.filterMap fun p =>
    match lookupKey fetched p.1 with
    | none => some p
    | some fetchedSlots =>
      let slots := p.2.filter fun s => !fetchedSlots.contains s
      if slots.isEmpty then none else some (p.1, slots)

/-- Modelled from the spec: merging newly requested proof targets into
`fetched_proof_targets` (`MultiProofTargets::extend_ref`, external
`reth_trie`) — per-account union of slot sets. -/
def MultiProofTargets.extend_ref (fetched targets : MultiProofTargets) :
    MultiProofTargets :=
  targets.foldl (fun acc p =>
    match lookupKey acc p.1 with
    | none => insertKey acc p.1 p.2
    | some slots => insertKey acc p.1 (slots ++ p.2.filter fun s => !slots.contains s)) fetched

/-- Modelled from the spec: `HashedPostState::multi_proof_targets_difference`
(external `reth_trie`) — the proof targets of this state update that are not
in `fetched`. -/
def HashedPostState.multi_proof_targets_difference (hps : HashedPostState)
    (fetched : MultiProofTargets) : MultiProofTargets :=
  let addrs := mapKeys hps.accounts ++
    (mapKeys hps.storages).filter fun a => !(mapKeys hps.accounts).contains a
  addrs.filterMap fun a =>
    let slots := match lookupKey hps.storages a with
      | some st => mapKeys st.storage
      | none => []
    match lookupKey fetched a with
    | none => some (a, slots)
    | some fetchedSlots =>
      let newSlots := slots.filter fun s => !fetchedSlots.contains s
      if newSlots.isEmpty then none else some (a, newSlots)

/-! ### `MultiProofManager` -/

/-- `MultiProofInput` (root.rs lines 334-343).  The `config` handle and the
`state_root_message_sender` channel endpoint carry no data used by the
bookkeeping and are omitted. -/
structure MultiProofInput where
  source : Option Nat
  hashed_state_update : HashedPostState
  proof_targets : MultiProofTargets
  proof_sequence_number : Nat
deriving DecidableEq, Repr

/-- Observable effect of a `MultiProofManager` call: either the synchronous
`EmptyProof` message sent to the reply channel, or a worker spawned on the
thread pool. -/
inductive ManagerEvent where
  | emptyProof (sequence_number : Nat) (state : HashedPostState)
  | spawned (input : MultiProofInput)
deriving DecidableEq, Repr

/-- `MultiProofManager` (root.rs lines 354-369); the thread-pool handle and
metrics are omitted. -/
structure MultiProofManager where
  max_concurrent : Nat
  inflight : Nat
  pending : List MultiProofInput
deriving DecidableEq, Repr

/-- `MultiProofManager::new` (root.rs lines 377-392).  In release builds the
`debug_assert!` is compiled out and the constructor always returns; the
asserted condition is `MultiProofManager.new_debug_assert`. -/
def MultiProofManager.new (thread_pool_size : Nat) : MultiProofManager :=
  { max_concurrent := thread_pool_size - 2, inflight := 0, pending := [] }

/-- The condition of `debug_assert!(max_concurrent != 0)` in
`MultiProofManager::new`: `false` means a debug build panics. -/
def MultiProofManager.new_debug_assert (thread_pool_size : Nat) : Bool :=
  thread_pool_size - 2 != 0

/-- `MultiProofManager::spawn_multiproof` (root.rs lines 432-495): spawn the
worker and increment `inflight`. -/
def MultiProofManager.spawn_multiproof (m : MultiProofManager)
    (input : MultiProofInput) : MultiProofManager × List ManagerEvent :=
  ({ m with inflight := m.inflight + 1 }, [ManagerEvent.spawned input])

/-- `MultiProofManager::spawn_or_queue` (root.rs lines 396-417). -/
def MultiProofManager.spawn_or_queue (m : MultiProofManager)
    (input : MultiProofInput) : MultiProofManager × List ManagerEvent :=
  if MultiProofTargets.is_empty input.proof_targets then
    (m, [ManagerEvent.emptyProof input.proof_sequence_number input.hashed_state_update])
  else if m.max_concurrent ≤ m.inflight then
    ({ m with pending := m.pending ++ [input] }, [])
  else
    m.spawn_multiproof input

/-- `MultiProofManager::on_calculation_complete` (root.rs lines 421-429):
decrement `inflight` (saturating), then dequeue and spawn one pending input
if the queue is non-empty. -/
def MultiProofManager.on_calculation_complete (m : MultiProofManager) :
    MultiProofManager × List ManagerEvent :=
  match m.pending with
  | [] => ({ m with inflight := m.inflight - 1 }, [])
  | input :: rest =>
    MultiProofManager.spawn_multiproof
      { m with inflight := m.inflight - 1, pending := rest } input

/-- One call on a `MultiProofManager` (used to describe reachable states). -/
inductive ManagerOp where
  | spawnOrQueue (input : MultiProofInput)
  | onCalculationComplete
deriving DecidableEq, Repr

/-- Apply one call to the manager state. -/
def ManagerOp.apply (m : MultiProofManager) : ManagerOp → MultiProofManager
  | .spawnOrQueue input => (m.spawn_or_queue input).1
  | .onCalculationComplete => m.on_calculation_complete.1

/-- The manager state reached from `m` after a sequence of calls. -/
def runManagerOps (m : MultiProofManager) (ops : List ManagerOp) : MultiProofManager :=
  ops.foldl ManagerOp.apply m

/-! ### `evm_state_to_hashed_post_state` -/

/-- `EvmStorageSlot` (external `revm` type): original and present value of a
storage slot. -/
structure EvmStorageSlot where
  original_value : Nat
  present_value : Nat
deriving DecidableEq, Repr

/-- `EvmStorageSlot::is_changed` (external `revm`): present value differs from
the original. -/
def EvmStorageSlot.is_changed (s : EvmStorageSlot) : Bool :=
  s.original_value != s.present_value

/-- An account in an `EvmState` (external `revm` type): account info, status
flags, and the touched storage slots. -/
structure EvmAccount where
  info : Nat
  touched : Bool
  selfdestructed : Bool
  storage : List (Nat × EvmStorageSlot)
deriving DecidableEq, Repr

/-- `Account::is_touched` (external `revm`). -/
def EvmAccount.is_touched (a : EvmAccount) : Bool := a.touched

/-- `Account::is_selfdestructed` (external `revm`). -/
def EvmAccount.is_selfdestructed (a : EvmAccount) : Bool := a.selfdestructed

/-- `EvmState` (external `revm`): address to account. -/
abbrev EvmState := List (Nat × EvmAccount)

/-- Body of the `for (address, account) in update` loop of
`evm_state_to_hashed_post_state` (root.rs lines 305-329).  The external
`keccak256` hash is a parameter of the embedding. -/
def evmStepAccount (keccak256 : Nat → Nat) (hashed_state : HashedPostState)
    (p : Nat × EvmAccount) : HashedPostState :=
  let address := p.1
  let account := p.2
  if account.is_touched then
    let hashed_address := keccak256 address
    let destroyed := account.is_selfdestructed
    let info : Option Nat := if destroyed then none else some account.info
    let hs1 : HashedPostState :=
      { hashed_state with
        accounts := insertKey hashed_state.accounts hashed_address info }
    let changed_storage :=
      (account.storage.filter fun q => q.2.is_changed).map
        fun q => (keccak256 q.1, q.2.present_value)
    if destroyed then
      { hs1 with
        storages := insertKey hs1.storages hashed_address (HashedStorage.new true) }
    else if !changed_storage.isEmpty then
      { hs1 with
        storages :=
          insertKey hs1.storages hashed_address
            (HashedStorage.from_iter false changed_storage) }
    else hs1
  else hashed_state

/-- `evm_state_to_hashed_post_state` (root.rs lines 302-332). -/
def evm_state_to_hashed_post_state (keccak256 : Nat → Nat) (update : EvmState) :
    HashedPostState :=
  update.foldl (evmStepAccount keccak256) HashedPostState.empty

/-- Concrete two-account EVM state used to witness claim C10: account `1` is
touched and self-destructed (with a changed slot that must be discarded),
account `5` is untouched. -/
def c10ExampleState : EvmState :=
  [(1, { info := 4, touched := true, selfdestructed := true,
         storage := [(2, { original_value := 0, present_value := 3 })] }),
   (5, { info := 6, touched := false, selfdestructed := false, storage := [] })]

/-! ### Coordinator (`StateRootTask::run`) -/

/-- `StateRootMessage` (root.rs lines 163-194).  Roots and `TrieUpdates` are
modelled as `Nat`; the `elapsed` duration of `ProofCalculated` is dropped. -/
inductive StateRootMessage where
  | prefetchProofs (targets : MultiProofTargets)
  | stateUpdate (source : Nat) (update : EvmState)
  | emptyProof (sequence_number : Nat) (state : HashedPostState)
  | proofCalculated (sequence_number : Nat) (update : SparseTrieUpdate)
      (account_targets : Nat) (storage_targets : Nat)
  | proofCalculationError
  | rootCalculated (state_root : Nat) (trie_updates : Nat) (iterations : Nat)
  | rootCalculationError
  | finishedStateUpdates
deriving DecidableEq, Repr

/-- The mutable state of the `StateRootTask::run` loop (the `StateRootTask`
fields of root.rs lines 547-565 plus the loop locals of lines 805-817).  The
two `Instant` timestamps are modelled by `Option Unit` (set or not), and
`sparse_trie_tx : Option<Sender>` by the `Bool` "still open". -/
structure CoordState where
  fetched_proof_targets : MultiProofTargets
  proof_sequencer : ProofSequencer SparseTrieUpdate
  multiproof_manager : MultiProofManager
  prefetch_proofs_received : Nat
  updates_received : Nat
  proofs_processed : Nat
  updates_finished : Bool
  first_update_time : Option Unit
  last_update_time : Option Unit
  sparse_trie_tx : Bool
deriving DecidableEq, Repr

/-- `check_end_condition` (root.rs lines 1016-1037). -/
def check_end_condition (proofs_processed updates_received prefetch_proofs_received : Nat)
    (updates_finished : Bool)
    (proof_sequencer : ProofSequencer SparseTrieUpdate) : Bool :=
  let all_proofs_received :=
    decide (updates_received + prefetch_proofs_received ≤ proofs_processed)
  let no_pending := !proof_sequencer.has_pending
  all_proofs_received && no_pending && updates_finished

/-- `check_end_condition` applied to the coordinator state's own fields. -/
def coordEndCondition (s : CoordState) : Bool :=
  check_end_condition s.proofs_processed s.updates_received s.prefetch_proofs_received
    s.updates_finished s.proof_sequencer

/-- `StateRootTask::on_prefetch_proof` (root.rs lines 706-719). -/
def on_prefetch_proof (s : CoordState) (targets : MultiProofTargets) :
    CoordState × List ManagerEvent :=
  let proof_targets := MultiProofTargets.retain_difference targets s.fetched_proof_targets
  let fetched := MultiProofTargets.extend_ref s.fetched_proof_targets proof_targets
  let seqres := s.proof_sequencer.nextSequence
  let mres := s.multiproof_manager.spawn_or_queue
    { source := none, hashed_state_update := HashedPostState.empty,
      proof_targets := proof_targets, proof_sequence_number := seqres.1 }
  ({ s with
      fetched_proof_targets := fetched,
      proof_sequencer := seqres.2,
      multiproof_manager := mres.1 }, mres.2)

/-- `StateRootTask::on_state_update` (root.rs lines 724-743). -/
def on_state_update (keccak256 : Nat → Nat) (s : CoordState) (source : Nat)
    (update : EvmState) (proof_sequence_number : Nat) :
    CoordState × List ManagerEvent :=
  let hashed_state_update := evm_state_to_hashed_post_state keccak256 update
  let proof_targets :=
    hashed_state_update.multi_proof_targets_difference s.fetched_proof_targets
  let fetched := MultiProofTargets.extend_ref s.fetched_proof_targets proof_targets
  let mres := s.multiproof_manager.spawn_or_queue
    { source := some source, hashed_state_update := hashed_state_update,
      proof_targets := proof_targets, proof_sequence_number := proof_sequence_number }
  ({ s with
      fetched_proof_targets := fetched,
      multiproof_manager := mres.1 }, mres.2)

/-- `StateRootTask::on_proof` (root.rs lines 746-762): feed the sequencer,
merge the ready prefix, and drop it if empty. -/
def on_proof (s : CoordState) (sequence_number : Nat) (update : SparseTrieUpdate) :
    Option SparseTrieUpdate × CoordState :=
  let res := s.proof_sequencer.add_proof sequence_number update
  let combined :=
    match res.1 with
    | [] => none
    | h :: t => some (t.foldl SparseTrieUpdate.extend h)
  let result :=
    match combined with
    | some proof => if SparseTrieUpdate.is_empty proof then none else some proof
    | none => none
  (result, { s with proof_sequencer := res.2 })

/-- Result of processing one inbound message in the main loop: continue with a
new state (recording the updates sent on `sparse_trie_tx` and the manager
events), return successfully, return an error, or panic. -/
inductive StepResult where
  | cont (s : CoordState) (sent : List SparseTrieUpdate) (events : List ManagerEvent)
  | ok (state_root : Nat) (trie_updates : Nat)
  | error (msg : String)
  | panicked (msg : String)
deriving DecidableEq, Repr

/-- The `if check_end_condition { sparse_trie_tx.take() }` block that follows
`FinishedStateUpdates`, `EmptyProof` and `ProofCalculated` processing
(root.rs lines 858-870, 887-899, 936-948). -/
def end_check (s : CoordState) (sent : List SparseTrieUpdate)
    (events : List ManagerEvent) : StepResult :=
  if coordEndCondition s then
    StepResult.cont { s with sparse_trie_tx := false } sent events
  else
    StepResult.cont s sent events

/-- The `if let Some(combined_update) { send } ... if check_end_condition
{ take }` block shared by the `EmptyProof` and `ProofCalculated` branches
(root.rs lines 877-899 and 927-948).  `combined` is what `on_proof` returned;
sending on a dropped `sparse_trie_tx` is the `expect("tx not dropped")`
panic. -/
def handle_proof_result (s2 : CoordState) (combined : Option SparseTrieUpdate)
    (events : List ManagerEvent) : StepResult :=
  match combined with
  | some u =>
    if s2.sparse_trie_tx then end_check s2 [u] events
    else StepResult.panicked "tx not dropped"
  | none => end_check s2 [] events

/-- One iteration of the `StateRootTask::run` main loop (root.rs lines
819-1002): process one inbound `StateRootMessage`. -/
def CoordStep (keccak256 : Nat → Nat) (s : CoordState) :
    StateRootMessage → StepResult
  | .prefetchProofs targets =>
    let s1 := { s with prefetch_proofs_received := s.prefetch_proofs_received + 1 }
    let res := on_prefetch_proof s1 targets
    StepResult.cont res.1 [] res.2
  | .stateUpdate source update =>
    let s1 := { s with
      first_update_time := if s.updates_received = 0 then some () else s.first_update_time,
      last_update_time := some (),
      updates_received := s.updates_received + 1 }
    let seqres := s1.proof_sequencer.nextSequence
    let s2 := { s1 with proof_sequencer := seqres.2 }
    let res := on_state_update keccak256 s2 source update seqres.1
    StepResult.cont res.1 [] res.2
  | .finishedStateUpdates =>
    let s1 := { s with updates_finished := true }
    end_check s1 [] []
  | .emptyProof sequence_number state =>
    let s1 := { s with proofs_processed := s.proofs_processed + 1 }
    let res := on_proof s1 sequence_number
      { state := state, multiproof := MultiProof.empty }
    handle_proof_result res.2 res.1 []
  | .proofCalculated sequence_number update _ _ =>
    let s1 := { s with proofs_processed := s.proofs_processed + 1 }
    let mres := s1.multiproof_manager.on_calculation_complete
    let s2 := { s1 with multiproof_manager := mres.1 }
    let res := on_proof s2 sequence_number update
    handle_proof_result res.2 res.1 mres.2
  | .rootCalculated state_root trie_updates _ =>
    match s.first_update_time with
    | none => StepResult.panicked "first update time should be set"
    | some _ =>
      match s.last_update_time with
      | none => StepResult.panicked "last update time should be set"
      | some _ => StepResult.ok state_root trie_updates
  | .proofCalculationError => StepResult.error "could not calculate multiproof"
  | .rootCalculationError => StepResult.error "could not calculate state root"

/-- The coordinator state at the top of `StateRootTask::run` (root.rs lines
573-588 and 805-817). -/
def initialCoordState (thread_pool_size : Nat) : CoordState :=
  { fetched_proof_targets := [],
    proof_sequencer := ProofSequencer.new SparseTrieUpdate,
    multiproof_manager := MultiProofManager.new thread_pool_size,
    prefetch_proofs_received := 0,
    updates_received := 0,
    proofs_processed := 0,
    updates_finished := false,
    first_update_time := none,
    last_update_time := none,
    sparse_trie_tx := true }

/-- Coordinator states reachable from the initial state by processing
messages in the main loop. -/
inductive CoordReachable (keccak256 : Nat → Nat) (thread_pool_size : Nat) :
    CoordState → Prop where
  | init : CoordReachable keccak256 thread_pool_size (initialCoordState thread_pool_size)
  | step {s s' : CoordState} {msg : StateRootMessage} {sent : List SparseTrieUpdate}
      {events : List ManagerEvent} :
      CoordReachable keccak256 thread_pool_size s →
      CoordStep keccak256 s msg = StepResult.cont s' sent events →
      CoordReachable keccak256 thread_pool_size s'

/-- The coordinator state after processing `FinishedStateUpdates` as the very
first message on a pool of size 5: all counters zero, `updates_finished` set,
and the sparse-trie sender dropped. -/
def c2DroppedState : CoordState :=
  { initialCoordState 5 with updates_finished := true, sparse_trie_tx := false }

/-- The coordinator state reached during an empty-block run (input
`FinishedStateUpdates` only, thread pool size 5), just before the updater's
`RootCalculated` reply arrives. -/
def c3StateAfterFinished : CoordState :=
  { initialCoordState 5 with updates_finished := true, sparse_trie_tx := false }

/-! ### `update_sparse_trie` -/

/-- `SPARSE_TRIE_INCREMENTAL_LEVEL` (root.rs line 42). -/
def SPARSE_TRIE_INCREMENTAL_LEVEL : Nat := 2

/-- Modelled from the spec: `Nibbles::unpack` (external `reth_trie`) — the 64
nibbles of a 32-byte key, most significant first. -/
def Nibbles.unpack (slot : Nat) : List Nat :=
  (List.range 64).map fun i => slot / 16 ^ (63 - i) % 16

/-- Modelled from the spec: `alloy_rlp::encode_fixed_size` on a `U256`
(external `alloy_rlp`) — the RLP encoding of the value's big-endian bytes
with leading zeros trimmed. -/
def beBytes32 (v : Nat) : List Nat :=
  ((List.range 32).map fun i => v / 256 ^ (31 - i) % 256).dropWhile fun b => b == 0

/-- Modelled from the spec: RLP string encoding of the trimmed byte string. -/
def encode_fixed_size (v : Nat) : List Nat :=
  match beBytes32 v with
  | [b] => if b < 128 then [b] else [129, b]
  | bs => (128 + bs.length) :: bs

/-- One mutation of a detached storage subtrie (the external `SparseTrie`
operations used by `update_sparse_trie`, recorded as a trace). -/
inductive StorageTrieOp where
  | wipe
  | remove_leaf (nibbles : List Nat)
  | update_leaf (nibbles : List Nat) (value : List Nat)
  | root
deriving DecidableEq, Repr

/-- One operation on the sparse state trie (the external `SparseStateTrie`
operations used by `update_sparse_trie`, recorded as a trace). -/
inductive TrieOp where
  | reveal_multiproof (multiproof : MultiProof)
  | take_storage_trie (address : Nat)
  | storage_op (address : Nat) (op : StorageTrieOp)
  | insert_storage_trie (address : Nat)
  | update_account (address : Nat) (account : Nat)
  | calculate_below_level (level : Nat)
deriving DecidableEq, Repr

/-- The mutations one parallel worker applies to the detached storage subtrie
of a single account (root.rs lines 1163-1179): wipe if flagged, then one
`remove_leaf`/`update_leaf` per slot in input order, then recompute the
storage root. -/
def storage_trie_ops (storage : HashedStorage) : List StorageTrieOp :=
  let ops : List StorageTrieOp := if storage.wiped then [StorageTrieOp.wipe] else []
  let ops := storage.storage.foldl (fun acc p =>
    if p.2 = 0 then acc ++ [StorageTrieOp.remove_leaf (Nibbles.unpack p.1)]
    else acc ++ [StorageTrieOp.update_leaf (Nibbles.unpack p.1)
      (encode_fixed_size p.2)]) ops
  ops ++ [StorageTrieOp.root]

/-- `update_sparse_trie` (root.rs lines 1135-1200) as the trace of trie
operations it performs, with the parallel per-account storage phase
sequentialised in input order: reveal the multiproof; detach and mutate each
account's storage subtrie; re-attach every subtrie as the results are
drained; apply the account updates; incrementally hash below
`SPARSE_TRIE_INCREMENTAL_LEVEL`. -/
def update_sparse_trie (upd : SparseTrieUpdate) : List TrieOp :=
  TrieOp.reveal_multiproof upd.multiproof ::
    ((upd.state.storages.map fun p =>
        TrieOp.take_storage_trie p.1 ::
          (storage_trie_ops p.2).map (TrieOp.storage_op p.1)).flatten ++
      upd.state.storages.map (fun p => TrieOp.insert_storage_trie p.1) ++
      upd.state.accounts.map (fun p => TrieOp.update_account p.1 (p.2.getD 0)) ++
      [TrieOp.calculate_below_level SPARSE_TRIE_INCREMENTAL_LEVEL])

/-- The storage-subtrie mutation a single `(slot, value)` pair produces
(root.rs lines 1167-1177). -/
def slotOp (p : Nat × Nat) : StorageTrieOp :=
  if p.2 = 0 then StorageTrieOp.remove_leaf (Nibbles.unpack p.1)
  else StorageTrieOp.update_leaf (Nibbles.unpack p.1) (encode_fixed_size p.2)

/-- Select the storage-subtrie mutations of one account out of a trace. -/
def storageOpAt (address : Nat) : TrieOp → Option StorageTrieOp
  | TrieOp.storage_op a op => if a = address then some op else none
  | _ => none

/-- Whether a trie operation re-attaches a storage subtrie. -/
def TrieOp.isInsertStorage : TrieOp → Bool
  | TrieOp.insert_storage_trie _ => true
  | _ => false

/-- Whether a trie operation writes an account leaf. -/
def TrieOp.isUpdateAccount : TrieOp → Bool
  | TrieOp.update_account _ _ => true
  | _ => false

/-- Whether a trie operation mutates a detached storage subtrie. -/
def TrieOp.isStorageOp : TrieOp → Bool
  | TrieOp.storage_op _ _ => true
  | _ => false

/-- Concrete update used to witness claim C9: one wiped storage with a zeroed
and a written slot, plus one account write. -/
def c9ExampleUpdate : SparseTrieUpdate :=
  { state :=
      { accounts := [(7, some 9)],
        storages := [(1, { wiped := true, storage := [(2, 0), (3, 4)] })] },
    multiproof := MultiProof.empty }

/-! ### Theorems -/

theorem containsKey_iff {V : Type} (l : List (Nat × V)) (k : Nat) :
    containsKey l k = true ↔ k ∈ mapKeys l := by
  simp [containsKey, mapKeys, List.any_eq_true, List.mem_map]

theorem containsKey_eq_false_iff {V : Type} (l : List (Nat × V)) (k : Nat) :
    containsKey l k = false ↔ k ∉ mapKeys l := by
  rw [← containsKey_iff]
  cases h : containsKey l k <;> simp [h]

theorem mem_eraseKey {V : Type} (l : List (Nat × V)) (k : Nat) (p : Nat × V) :
    p ∈ eraseKey l k ↔ p ∈ l ∧ p.1 ≠ k := by
  simp [eraseKey, List.mem_filter]

theorem mapKeys_eraseKey {V : Type} (l : List (Nat × V)) (k m : Nat) :
    m ∈ mapKeys (eraseKey l k) ↔ m ∈ mapKeys l ∧ m ≠ k := by
  simp only [mapKeys, List.mem_map]
  constructor
  · rintro ⟨p, hp, rfl⟩
    rw [mem_eraseKey] at hp
    exact ⟨⟨p, hp.1, rfl⟩, hp.2⟩
  · rintro ⟨⟨p, hp, rfl⟩, hne⟩
    exact ⟨p, (mem_eraseKey l k p).mpr ⟨hp, hne⟩, rfl⟩

theorem eraseKey_sublist {V : Type} (l : List (Nat × V)) (k : Nat) :
    (eraseKey l k).Sublist l :=
  List.filter_sublist l

theorem nodup_eraseKey {V : Type} (l : List (Nat × V)) (k : Nat)
    (h : (mapKeys l).Nodup) : (mapKeys (eraseKey l k)).Nodup := by
  have : (eraseKey l k).Sublist l := eraseKey_sublist l k
  exact (this.map Prod.fst).nodup h

theorem length_eraseKey_lt {V : Type} (l : List (Nat × V)) (k : Nat)
    (h : containsKey l k = true) : (eraseKey l k).length < l.length := by
  rw [containsKey_iff] at h
  simp only [mapKeys, List.mem_map] at h
  obtain ⟨p, hp, hk⟩ := h
  have hsub : (eraseKey l k).Sublist l := eraseKey_sublist l k
  rcases Nat.lt_or_ge (eraseKey l k).length l.length with h' | h'
  · exact h'
  · exfalso
    have : eraseKey l k = l := hsub.eq_of_length_le h'
    have hpmem : p ∈ eraseKey l k := by rw [this]; exact hp
    rw [mem_eraseKey] at hpmem
    exact hpmem.2 hk

theorem lookupKey_eq_none_iff {V : Type} (l : List (Nat × V)) (k : Nat) :
    lookupKey l k = none ↔ containsKey l k = false := by
  simp [lookupKey, containsKey, Option.map_eq_none', List.find?_eq_none,
    List.any_eq_false]

theorem lookupKey_mem {V : Type} {l : List (Nat × V)} {k : Nat} {v : V}
    (h : lookupKey l k = some v) : (k, v) ∈ l := by
  simp only [lookupKey, Option.map_eq_some'] at h
  obtain ⟨p, hp, rfl⟩ := h
  have hmem := List.mem_of_find?_eq_some hp
  have hpk := List.find?_some hp
  simp at hpk
  cases p with
  | mk a b => simp_all

theorem lookupKey_isSome_of_contains {V : Type} {l : List (Nat × V)} {k : Nat}
    (h : containsKey l k = true) : ∃ v, lookupKey l k = some v := by
  cases hl : lookupKey l k with
  | some v => exact ⟨v, rfl⟩
  | none => rw [lookupKey_eq_none_iff] at hl; rw [h] at hl; cases hl

theorem mapKeys_insertKey_of_contains {V : Type} (l : List (Nat × V)) (k : Nat) (v : V)
    (h : containsKey l k = true) : mapKeys (insertKey l k v) = mapKeys l := by
  simp only [insertKey, h, if_true, mapKeys, List.map_map]
  apply List.map_congr_left
  intro p _
  by_cases hp : p.1 = k
  · simp [hp]
  · simp [hp]

theorem mapKeys_insertKey_of_not_contains {V : Type} (l : List (Nat × V)) (k : Nat) (v : V)
    (h : containsKey l k = false) : mapKeys (insertKey l k v) = mapKeys l ++ [k] := by
  simp [insertKey, h, mapKeys]

theorem mem_mapKeys_insertKey {V : Type} (l : List (Nat × V)) (k : Nat) (v : V) (m : Nat) :
    m ∈ mapKeys (insertKey l k v) ↔ m ∈ mapKeys l ∨ m = k := by
  cases h : containsKey l k with
  | true =>
    rw [mapKeys_insertKey_of_contains l k v h]
    constructor
    · exact Or.inl
    · rintro (hm | rfl)
      · exact hm
      · exact (containsKey_iff l m).mp h
  | false =>
    rw [mapKeys_insertKey_of_not_contains l k v h]
    simp

theorem nodup_mapKeys_insertKey {V : Type} (l : List (Nat × V)) (k : Nat) (v : V)
    (h : (mapKeys l).Nodup) : (mapKeys (insertKey l k v)).Nodup := by
  cases hc : containsKey l k with
  | true => rw [mapKeys_insertKey_of_contains l k v hc]; exact h
  | false =>
    rw [mapKeys_insertKey_of_not_contains l k v hc]
    rw [containsKey_eq_false_iff] at hc
    simp [List.nodup_append, h, hc]

theorem mem_insertKey {V : Type} (l : List (Nat × V)) (k : Nat) (v : V) (p : Nat × V)
    (h : p ∈ insertKey l k v) : p ∈ l ∨ p = (k, v) := by
  cases hc : containsKey l k with
  | true =>
    simp only [insertKey, hc, if_true, List.mem_map] at h
    obtain ⟨q, hq, hqp⟩ := h
    by_cases hqk : q.1 = k
    · simp only [hqk, beq_self_eq_true, if_true] at hqp
      exact Or.inr hqp.symm
    · simp only [beq_eq_false_iff_ne.mpr hqk, if_false] at hqp
      exact Or.inl (hqp ▸ hq)
  | false =>
    simp only [insertKey, hc, Bool.false_eq_true, if_false, List.mem_append,
      List.mem_singleton] at h
    exact h

theorem lookupKey_append_single_self {V : Type} (l : List (Nat × V)) (k : Nat) (v : V)
    (hc : containsKey l k = false) : lookupKey (l ++ [(k, v)]) k = some v := by
  induction l with
  | nil => simp [lookupKey, List.find?]
  | cons p l ih =>
    simp only [containsKey, List.any_cons, Bool.or_eq_false_iff] at hc
    simp only [List.cons_append, lookupKey, List.find?_cons, hc.1]
    exact ih hc.2

theorem lookupKey_append_single_ne {V : Type} (l : List (Nat × V)) (k : Nat) (v : V) (m : Nat)
    (hne : m ≠ k) : lookupKey (l ++ [(k, v)]) m = lookupKey l m := by
  have hkm : (k == m) = false := beq_eq_false_iff_ne.mpr fun h => hne h.symm
  induction l with
  | nil => simp [lookupKey, List.find?, hkm]
  | cons p l ih =>
    simp only [List.cons_append, lookupKey, List.find?_cons] at *
    cases hpm : (p.1 == m) with
    | true => rfl
    | false => exact ih

theorem lookupKey_overwrite_self {V : Type} (l : List (Nat × V)) (k : Nat) (v : V)
    (hc : containsKey l k = true) :
    lookupKey (l.map fun p => if p.1 == k then (k, v) else p) k = some v := by
  induction l with
  | nil => simp [containsKey] at hc
  | cons p l ih =>
    by_cases hp : p.1 = k
    · simp [lookupKey, List.find?_cons, hp]
    · have hpk : (p.1 == k) = false := beq_eq_false_iff_ne.mpr hp
      have hc' : containsKey l k = true := by
        simp only [containsKey, List.any_cons, hpk, Bool.false_or] at hc
        exact hc
      simp only [List.map_cons, hpk, Bool.false_eq_true, if_false]
      simp only [lookupKey, List.find?_cons, hpk]
      exact ih hc'

theorem lookupKey_overwrite_ne {V : Type} (l : List (Nat × V)) (k : Nat) (v : V) (m : Nat)
    (hne : m ≠ k) :
    lookupKey (l.map fun p => if p.1 == k then (k, v) else p) m = lookupKey l m := by
  have hkm : (k == m) = false := beq_eq_false_iff_ne.mpr fun h => hne h.symm
  induction l with
  | nil => simp
  | cons p l ih =>
    by_cases hp : p.1 = k
    · have hpk : (p.1 == k) = true := beq_iff_eq.mpr hp
      have hpm : (p.1 == m) = false := by rw [hp]; exact hkm
      simp only [List.map_cons, hpk, if_true]
      simp only [lookupKey, List.find?_cons, hkm, hpm]
      exact ih
    · have hpk : (p.1 == k) = false := beq_eq_false_iff_ne.mpr hp
      simp only [List.map_cons, hpk, Bool.false_eq_true, if_false]
      simp only [lookupKey, List.find?_cons]
      cases hpm : (p.1 == m) with
      | true => simp [hpm]
      | false => simp only [hpm]; exact ih

theorem lookupKey_insertKey_self {V : Type} (l : List (Nat × V)) (k : Nat) (v : V) :
    lookupKey (insertKey l k v) k = some v := by
  cases hc : containsKey l k with
  | true =>
    simp only [insertKey, hc, if_true]
    exact lookupKey_overwrite_self l k v hc
  | false =>
    simp only [insertKey, hc, Bool.false_eq_true, if_false]
    exact lookupKey_append_single_self l k v hc

theorem lookupKey_insertKey_ne {V : Type} (l : List (Nat × V)) (k : Nat) (v : V) (m : Nat)
    (hne : m ≠ k) : lookupKey (insertKey l k v) m = lookupKey l m := by
  cases hc : containsKey l k with
  | true =>
    simp only [insertKey, hc, if_true]
    exact lookupKey_overwrite_ne l k v m hne
  | false =>
    simp only [insertKey, hc, Bool.false_eq_true, if_false]
    exact lookupKey_append_single_ne l k v m hne

theorem lookupKey_some_contains {U : Type} {l : List (Nat × U)} {k : Nat} {v : U}
    (h : lookupKey l k = some v) : containsKey l k = true := by
  cases hc : containsKey l k with
  | true => rfl
  | false => rw [← lookupKey_eq_none_iff] at hc; rw [hc] at h; cases h

theorem collectGo_spec {U : Type} (fuel : Nat) :
    ∀ (l : List (Nat × U)) (cur : Nat), l.length ≤ fuel →
    (collectGo fuel l cur).2 =
      l.filter (fun p =>
        decide (p.1 < cur) || decide (cur + (collectGo fuel l cur).1.length ≤ p.1)) ∧
    (∀ i, i < (collectGo fuel l cur).1.length → containsKey l (cur + i) = true) ∧
    containsKey l (cur + (collectGo fuel l cur).1.length) = false := by
  induction fuel with
  | zero =>
    intro l cur hlen
    have hnil : l = [] := List.length_eq_zero.mp (Nat.le_zero.mp hlen)
    subst hnil
    refine ⟨by simp [collectGo], ?_, by simp [collectGo, containsKey]⟩
    intro i hi
    simp [collectGo] at hi
  | succ fuel ih =>
    intro l cur hlen
    cases hl : lookupKey l cur with
    | none =>
      have hc : containsKey l cur = false := (lookupKey_eq_none_iff l cur).mp hl
      simp only [collectGo, hl]
      refine ⟨?_, ?_, ?_⟩
      · symm
        rw [List.filter_eq_self]
        intro p _
        simp only [List.length_nil, Nat.add_zero, Bool.or_eq_true, decide_eq_true_eq]
        omega
      · intro i hi
        simp at hi
      · simpa using hc
    | some v =>
      have hcont : containsKey l cur = true := lookupKey_some_contains hl
      have hlt := length_eraseKey_lt l cur hcont
      have hlen' : (eraseKey l cur).length ≤ fuel := by omega
      obtain ⟨h2, hmem, hstop⟩ := ih (eraseKey l cur) (cur + 1) hlen'
      simp only [collectGo, hl, List.length_cons]
      refine ⟨?_, ?_, ?_⟩
      · rw [h2, eraseKey, List.filter_filter]
        apply List.filter_congr
        intro p _
        rw [Bool.eq_iff_iff]
        simp only [Bool.and_eq_true, bne_iff_ne, ne_eq, Bool.or_eq_true, decide_eq_true_eq]
        omega
      · intro i hi
        match i with
        | 0 => simpa using hcont
        | i + 1 =>
          have hi' : i < (collectGo fuel (eraseKey l cur) (cur + 1)).1.length := by omega
          have := hmem i hi'
          rw [containsKey_iff] at this ⊢
          rw [mapKeys_eraseKey] at this
          have harith : cur + (i + 1) = cur + 1 + i := by omega
          rw [harith]
          exact this.1
      · cases hc : containsKey l (cur + ((collectGo fuel (eraseKey l cur) (cur + 1)).1.length + 1)) with
        | false => rfl
        | true =>
          exfalso
          rw [containsKey_iff] at hc
          have hne : cur + ((collectGo fuel (eraseKey l cur) (cur + 1)).1.length + 1) ≠ cur := by
            omega
          have : cur + ((collectGo fuel (eraseKey l cur) (cur + 1)).1.length + 1) ∈
              mapKeys (eraseKey l cur) :=
            (mapKeys_eraseKey l cur _).mpr ⟨hc, hne⟩
          rw [← containsKey_iff] at this
          have harith : cur + 1 + (collectGo fuel (eraseKey l cur) (cur + 1)).1.length =
              cur + ((collectGo fuel (eraseKey l cur) (cur + 1)).1.length + 1) := by omega
          rw [harith] at hstop
          rw [hstop] at this
          cases this

theorem collectGo_fst {U : Type} (u : Nat → U) (fuel : Nat) :
    ∀ (l : List (Nat × U)) (cur : Nat), (∀ p ∈ l, p.2 = u p.1) →
    (collectGo fuel l cur).1 =
      (List.range' cur (collectGo fuel l cur).1.length).map u := by
  induction fuel with
  | zero => intro l cur _; simp [collectGo]
  | succ fuel ih =>
    intro l cur hv
    cases hl : lookupKey l cur with
    | none => simp [collectGo, hl]
    | some v =>
      have hvcur : v = u cur := hv (cur, v) (lookupKey_mem hl)
      have hv' : ∀ p ∈ eraseKey l cur, p.2 = u p.1 := fun p hp =>
        hv p ((mem_eraseKey l cur p).mp hp).1
      have hrest := ih (eraseKey l cur) (cur + 1) hv'
      simp only [collectGo, hl, List.length_cons]
      rw [List.range'_succ, List.map_cons, ← hvcur, ← hrest]

theorem collectConsecutive_spec {U : Type} (l : List (Nat × U)) (cur : Nat) :
    (collectConsecutive l cur).2 =
      l.filter (fun p =>
        decide (p.1 < cur) || decide (cur + (collectConsecutive l cur).1.length ≤ p.1)) ∧
    (∀ i, i < (collectConsecutive l cur).1.length → containsKey l (cur + i) = true) ∧
    containsKey l (cur + (collectConsecutive l cur).1.length) = false :=
  collectGo_spec l.length l cur (Nat.le_refl _)

theorem collectConsecutive_fst {U : Type} (u : Nat → U) (l : List (Nat × U)) (cur : Nat)
    (hv : ∀ p ∈ l, p.2 = u p.1) :
    (collectConsecutive l cur).1 =
      (List.range' cur (collectConsecutive l cur).1.length).map u :=
  collectGo_fst u l.length l cur hv

theorem mem_mapKeys_filter {V : Type} (l : List (Nat × V)) (f : Nat × V → Bool) (m : Nat) :
    m ∈ mapKeys (l.filter f) ↔ ∃ p, p ∈ l ∧ f p = true ∧ p.1 = m := by
  simp only [mapKeys, List.mem_map, List.mem_filter]
  constructor
  · rintro ⟨p, ⟨hp, hf⟩, rfl⟩; exact ⟨p, hp, hf, rfl⟩
  · rintro ⟨p, hp, hf, rfl⟩; exact ⟨p, ⟨hp, hf⟩, rfl⟩

theorem nodup_mapKeys_sublist {V : Type} {l' l : List (Nat × V)} (h : l'.Sublist l)
    (hn : (mapKeys l).Nodup) : (mapKeys l').Nodup :=
  (h.map Prod.fst).nodup hn

theorem SeqInv_new (U : Type) : SeqInv (ProofSequencer.new U) := by
  constructor
  · simp [ProofSequencer.new, mapKeys]
  · intro m hm
    simp [ProofSequencer.new, mapKeys] at hm

theorem SeqInv_add_proof {U : Type} (s : ProofSequencer U) (k : Nat) (v : U)
    (h : SeqInv s) : SeqInv (s.add_proof k v).2 := by
  obtain ⟨hnd, hgt⟩ := h
  simp only [ProofSequencer.add_proof]
  set pending :=
    if s.next_to_deliver ≤ k then insertKey s.pending_proofs k v
    else s.pending_proofs with hpending
  have hnd' : (mapKeys pending).Nodup := by
    rw [hpending]; split
    · exact nodup_mapKeys_insertKey _ _ _ hnd
    · exact hnd
  have hmem' : ∀ m ∈ mapKeys pending,
      m ∈ mapKeys s.pending_proofs ∨ (s.next_to_deliver ≤ k ∧ m = k) := by
    intro m hm
    rw [hpending] at hm
    by_cases hk : s.next_to_deliver ≤ k
    · rw [if_pos hk] at hm
      rcases (mem_mapKeys_insertKey _ _ _ _).mp hm with h | h
      · exact Or.inl h
      · exact Or.inr ⟨hk, h⟩
    · rw [if_neg hk] at hm
      exact Or.inl hm
  have hge : ∀ m ∈ mapKeys pending, s.next_to_deliver ≤ m := by
    intro m hm
    rcases hmem' m hm with h | ⟨hk, rfl⟩
    · exact Nat.le_of_lt (hgt m h)
    · exact hk
  by_cases hc : containsKey pending s.next_to_deliver = false
  · rw [if_pos hc]
    refine ⟨hnd', ?_⟩
    intro m hm
    have h1 := hge m hm
    rcases Nat.lt_or_ge s.next_to_deliver m with h2 | h2
    · exact h2
    · exfalso
      have hmd : m = s.next_to_deliver := Nat.le_antisymm h2 h1
      rw [hmd] at hm
      rw [(containsKey_iff pending s.next_to_deliver).mpr hm] at hc
      cases hc
  · rw [if_neg hc]
    obtain ⟨h2, _, hstop⟩ := collectConsecutive_spec pending s.next_to_deliver
    refine ⟨?_, ?_⟩
    · show (mapKeys (collectConsecutive pending s.next_to_deliver).2).Nodup
      rw [h2]
      exact nodup_mapKeys_sublist (List.filter_sublist _) hnd'
    · intro m hm
      show s.next_to_deliver + (collectConsecutive pending s.next_to_deliver).1.length < m
      rw [show (mapKeys (collectConsecutive pending s.next_to_deliver).2) =
            mapKeys ((collectConsecutive pending s.next_to_deliver).2) from rfl, h2] at hm
      obtain ⟨p, hp, hpred, rfl⟩ := (mem_mapKeys_filter _ _ _).mp hm
      have hpin : p.1 ∈ mapKeys pending := List.mem_map.mpr ⟨p, hp, rfl⟩
      have hle := hge p.1 hpin
      simp only [Bool.or_eq_true, decide_eq_true_eq] at hpred
      have hge2 : s.next_to_deliver + (collectConsecutive pending s.next_to_deliver).1.length ≤ p.1 := by
        omega
      rcases Nat.lt_or_ge (s.next_to_deliver +
          (collectConsecutive pending s.next_to_deliver).1.length) p.1 with h3 | h3
      · exact h3
      · exfalso
        have heq : p.1 = s.next_to_deliver +
            (collectConsecutive pending s.next_to_deliver).1.length := by omega
        have hck : containsKey pending (s.next_to_deliver +
            (collectConsecutive pending s.next_to_deliver).1.length) = true := by
          rw [← heq]
          exact (containsKey_iff pending p.1).mpr hpin
        rw [hck] at hstop
        cases hstop

theorem SeqInv_apply {U : Type} (s : ProofSequencer U) (op : SeqOp U)
    (h : SeqInv s) : SeqInv (SeqOp.apply s op) := by
  cases op with
  | nextSeq => exact h
  | addProof k v => exact SeqInv_add_proof s k v h
  | hasPending => exact h

theorem SeqInv_runSeqOps {U : Type} (ops : List (SeqOp U)) :
    ∀ (s : ProofSequencer U), SeqInv s → SeqInv (runSeqOps s ops) := by
  induction ops with
  | nil => intro s h; exact h
  | cons op ops ih =>
    intro s h
    exact ih (SeqOp.apply s op) (SeqInv_apply s op h)

theorem SeqFeedInv_congr {U : Type} {u : Nat → U} {F F' : List Nat}
    {s : ProofSequencer U} (h : SeqFeedInv u F s) (hFF : ∀ x, x ∈ F ↔ x ∈ F') :
    SeqFeedInv u F' s := by
  obtain ⟨h1, h2, h3, h4, h5⟩ := h
  refine ⟨h1, h2, ?_, ?_, ?_⟩
  · intro m
    rw [h3 m, hFF m]
  · intro j hj
    rw [← hFF j]
    exact h4 j hj
  · rw [← hFF]
    exact h5

theorem SeqFeedInv_add_proof {U : Type} (u : Nat → U) (F : List Nat)
    (s : ProofSequencer U) (k : Nat) (hInv : SeqFeedInv u F s) (hk : k ∉ F) :
    SeqFeedInv u (k :: F) (s.add_proof k (u k)).2 ∧
    s.next_to_deliver ≤ (s.add_proof k (u k)).2.next_to_deliver ∧
    (s.add_proof k (u k)).1 =
      (List.range' s.next_to_deliver
        ((s.add_proof k (u k)).2.next_to_deliver - s.next_to_deliver)).map u := by
  obtain ⟨hnd, hv, hchar, hlow, hdF⟩ := hInv
  have hdkeys : s.next_to_deliver ∉ mapKeys s.pending_proofs := by
    rw [hchar]
    rintro ⟨h, -⟩
    exact hdF h
  have hle : s.next_to_deliver ≤ k := by
    rcases Nat.lt_or_ge k s.next_to_deliver with h | h
    · exact absurd (hlow k h) hk
    · exact h
  simp only [ProofSequencer.add_proof, hle, if_true]
  set pending := insertKey s.pending_proofs k (u k) with hpendeq
  have hnd' : (mapKeys pending).Nodup := nodup_mapKeys_insertKey _ _ _ hnd
  have hv' : ∀ p ∈ pending, p.2 = u p.1 := by
    intro p hp
    rcases mem_insertKey _ _ _ _ hp with h | rfl
    · exact hv p h
    · rfl
  have hkeys' : ∀ m, m ∈ mapKeys pending ↔ (m ∈ k :: F ∧ s.next_to_deliver ≤ m) := by
    intro m
    rw [hpendeq, mem_mapKeys_insertKey, hchar]
    constructor
    · rintro (⟨hF, hd⟩ | rfl)
      · exact ⟨List.mem_cons_of_mem _ hF, hd⟩
      · exact ⟨List.mem_cons_self _ _, hle⟩
    · rintro ⟨hm, hd⟩
      rcases List.mem_cons.mp hm with rfl | hF
      · exact Or.inr rfl
      · exact Or.inl ⟨hF, hd⟩
  by_cases hkd : k = s.next_to_deliver
  case neg =>
    have hklt : s.next_to_deliver < k := Nat.lt_of_le_of_ne hle (fun h => hkd h.symm)
    have hcf : containsKey pending s.next_to_deliver = false := by
      rw [containsKey_eq_false_iff, hkeys']
      rintro ⟨hm, -⟩
      rcases List.mem_cons.mp hm with h | h
      · omega
      · exact hdF h
    rw [if_pos hcf]
    refine ⟨⟨hnd', hv', hkeys', ?_, ?_⟩, ?_, ?_⟩
    · intro j hj
      exact List.mem_cons_of_mem _ (hlow j hj)
    · show s.next_to_deliver ∉ k :: F
      intro hmem
      rcases List.mem_cons.mp hmem with h | h
      · omega
      · exact hdF h
    · show s.next_to_deliver ≤ s.next_to_deliver
      exact Nat.le_refl _
    · show ([] : List U) =
        (List.range' s.next_to_deliver (s.next_to_deliver - s.next_to_deliver)).map u
      simp
  case pos =>
    rw [← hkd] at hdkeys hlow hdF hkeys'
    rw [← hkd]
    have hct : containsKey pending k = true := by
      rw [containsKey_iff, hkeys']
      exact ⟨List.mem_cons_self _ _, Nat.le_refl _⟩
    rw [if_neg (by rw [hct]; intro h; cases h)]
    obtain ⟨hsnd, hrun, hstop⟩ := collectConsecutive_spec pending k
    set r := (collectConsecutive pending k).1.length with hr
    have hrpos : 1 ≤ r := by
      rcases Nat.eq_zero_or_pos r with h0 | h1
      · rw [h0, Nat.add_zero] at hstop
        rw [hct] at hstop
        cases hstop
      · exact h1
    refine ⟨⟨?_, ?_, ?_, ?_, ?_⟩, Nat.le_add_right k r, ?_⟩
    · show (mapKeys (collectConsecutive pending k).2).Nodup
      rw [hsnd]
      exact nodup_mapKeys_sublist (List.filter_sublist _) hnd'
    · intro p hp
      show p.2 = u p.1
      rw [hsnd] at hp
      exact hv' p (List.mem_of_mem_filter hp)
    · intro m
      show m ∈ mapKeys (collectConsecutive pending k).2 ↔ m ∈ k :: F ∧ k + r ≤ m
      rw [hsnd]
      rw [mem_mapKeys_filter]
      constructor
      · rintro ⟨p, hp, hpred, rfl⟩
        have hpk : p.1 ∈ mapKeys pending := List.mem_map.mpr ⟨p, hp, rfl⟩
        obtain ⟨hmem, hd⟩ := (hkeys' p.1).mp hpk
        simp only [Bool.or_eq_true, decide_eq_true_eq, ← hr] at hpred
        exact ⟨hmem, by omega⟩
      · rintro ⟨hm, hd⟩
        have hpk : m ∈ mapKeys pending := (hkeys' m).mpr ⟨hm, by omega⟩
        obtain ⟨p, hp, hfst⟩ := List.mem_map.mp hpk
        refine ⟨p, hp, ?_, hfst⟩
        simp only [Bool.or_eq_true, decide_eq_true_eq, ← hr, hfst]
        omega
    · show ∀ j, j < k + r → j ∈ k :: F
      intro j hj
      rcases Nat.lt_or_ge j k with h | h
      · exact List.mem_cons_of_mem _ (hlow j h)
      · have : containsKey pending (k + (j - k)) = true := hrun (j - k) (by omega)
        rw [show k + (j - k) = j from by omega, containsKey_iff, hkeys'] at this
        exact this.1
    · show k + r ∉ k :: F
      intro hmem
      have : k + r ∈ mapKeys pending := (hkeys' (k + r)).mpr ⟨hmem, by omega⟩
      rw [← containsKey_iff] at this
      rw [this] at hstop
      cases hstop
    · show (collectConsecutive pending k).1 =
        (List.range' k (k + r - k)).map u
      rw [show k + r - k = r from by omega]
      exact collectConsecutive_fst u pending k hv'

theorem feedAll_spec {U : Type} (u : Nat → U) :
    ∀ (l : List Nat) (F : List Nat) (s : ProofSequencer U),
      SeqFeedInv u F s → (∀ x ∈ l, x ∉ F) → l.Nodup →
      SeqFeedInv u (l ++ F) (feedAll u s l).2 ∧
      s.next_to_deliver ≤ (feedAll u s l).2.next_to_deliver ∧
      (feedAll u s l).1 =
        (List.range' s.next_to_deliver
          ((feedAll u s l).2.next_to_deliver - s.next_to_deliver)).map u := by
  intro l
  induction l with
  | nil =>
    intro F s hInv _ _
    refine ⟨hInv, Nat.le_refl _, by simp [feedAll]⟩
  | cons k rest ih =>
    intro F s hInv hnew hnd
    have hk : k ∉ F := hnew k (List.mem_cons_self _ _)
    obtain ⟨hInv1, hle1, hout1⟩ := SeqFeedInv_add_proof u F s k hInv hk
    have hnew' : ∀ x ∈ rest, x ∉ k :: F := by
      intro x hx hmem
      rcases List.mem_cons.mp hmem with rfl | h
      · exact (List.nodup_cons.mp hnd).1 hx
      · exact hnew x (List.mem_cons_of_mem _ hx) h
    obtain ⟨hInv2, hle2, hout2⟩ :=
      ih (k :: F) (s.add_proof k (u k)).2 hInv1 hnew' (List.nodup_cons.mp hnd).2
    refine ⟨?_, ?_, ?_⟩
    · show SeqFeedInv u (k :: rest ++ F) (feedAll u s (k :: rest)).2
      have : (feedAll u s (k :: rest)).2 = (feedAll u (s.add_proof k (u k)).2 rest).2 := rfl
      rw [this]
      apply SeqFeedInv_congr hInv2
      intro x
      simp only [List.mem_append, List.mem_cons]
      tauto
    · show s.next_to_deliver ≤ (feedAll u s (k :: rest)).2.next_to_deliver
      have : (feedAll u s (k :: rest)).2 = (feedAll u (s.add_proof k (u k)).2 rest).2 := rfl
      rw [this]
      omega
    · show (s.add_proof k (u k)).1 ++ (feedAll u (s.add_proof k (u k)).2 rest).1 =
        (List.range' s.next_to_deliver
          ((feedAll u s (k :: rest)).2.next_to_deliver - s.next_to_deliver)).map u
      have hs2 : (feedAll u s (k :: rest)).2 = (feedAll u (s.add_proof k (u k)).2 rest).2 := rfl
      rw [hs2, hout1, hout2, ← List.map_append]
      congr 1
      have hr1 : (s.add_proof k (u k)).2.next_to_deliver =
          s.next_to_deliver + ((s.add_proof k (u k)).2.next_to_deliver - s.next_to_deliver) := by
        omega
      calc
        List.range' s.next_to_deliver
            ((s.add_proof k (u k)).2.next_to_deliver - s.next_to_deliver) ++
          List.range' (s.add_proof k (u k)).2.next_to_deliver
            ((feedAll u (s.add_proof k (u k)).2 rest).2.next_to_deliver -
              (s.add_proof k (u k)).2.next_to_deliver)
            = List.range' s.next_to_deliver
                ((s.add_proof k (u k)).2.next_to_deliver - s.next_to_deliver) ++
              List.range' (s.next_to_deliver +
                  ((s.add_proof k (u k)).2.next_to_deliver - s.next_to_deliver))
                ((feedAll u (s.add_proof k (u k)).2 rest).2.next_to_deliver -
                  (s.add_proof k (u k)).2.next_to_deliver) := by rw [← hr1]
        _ = List.range' s.next_to_deliver
              (((feedAll u (s.add_proof k (u k)).2 rest).2.next_to_deliver -
                  (s.add_proof k (u k)).2.next_to_deliver) +
                ((s.add_proof k (u k)).2.next_to_deliver - s.next_to_deliver)) :=
          List.range'_append_1 _ _ _
        _ = List.range' s.next_to_deliver
              ((feedAll u (s.add_proof k (u k)).2 rest).2.next_to_deliver -
                s.next_to_deliver) := by congr 1; omega

theorem add_proof_advances {U : Type} (s : ProofSequencer U) (k : Nat) (v : U) :
    (s.add_proof k v).2.next_to_deliver = s.next_to_deliver + (s.add_proof k v).1.length := by
  simp only [ProofSequencer.add_proof]
  split <;> split <;> simp

/-- Claim C1: `add_proof` records the update and returns the longest contiguous
prefix of buffered updates starting at `next_to_deliver`, advancing
`next_to_deliver` by exactly the length of the returned list; consequently, for
every interleaving of `add_proof` calls with distinct sequences `0..N` (with
`next_sequence` pre-set to `N`), the concatenation of all returned lists equals
`[update_0, ..., update_(N-1)]` in sequence order, and afterwards `has_pending`
is false. -/
theorem claim_C1_add_proof_sequencing (U : Type) (u : Nat → U) (N : Nat)
    (l : List Nat) (hperm : l.Perm (List.range N)) :
    (∀ (s : ProofSequencer U) (sequence : Nat) (update : U),
      (s.add_proof sequence update).2.next_to_deliver =
        s.next_to_deliver + (s.add_proof sequence update).1.length) ∧
    (feedAll u { next_sequence := N } l).1 = (List.range N).map u ∧
    (feedAll u { next_sequence := N } l).2.has_pending = false := by
  have hInv0 : SeqFeedInv u [] ({ next_sequence := N } : ProofSequencer U) := by
    refine ⟨?_, ?_, ?_, ?_, ?_⟩
    · simp [mapKeys]
    · intro p hp
      simp at hp
    · intro m
      simp [mapKeys]
    · intro j hj
      exact absurd hj (Nat.not_lt_zero j)
    · simp
  have hnodup : l.Nodup := hperm.nodup_iff.mpr (List.nodup_range N)
  have hmem : ∀ x, x ∈ l ↔ x < N := fun x => by rw [hperm.mem_iff, List.mem_range]
  obtain ⟨hInvF, hle, hout⟩ :=
    feedAll_spec u l [] { next_sequence := N } hInv0
      (fun x _ h => (List.not_mem_nil x) h) hnodup
  rw [List.append_nil] at hInvF
  obtain ⟨hnd2, hv2, hchar2, hlow2, hdF2⟩ := hInvF
  have hdN : (feedAll u { next_sequence := N } l).2.next_to_deliver = N := by
    have h1 : ¬ (feedAll u { next_sequence := N } l).2.next_to_deliver < N := fun h =>
      hdF2 ((hmem _).mpr h)
    have h2 : ¬ N < (feedAll u { next_sequence := N } l).2.next_to_deliver := fun h =>
      Nat.lt_irrefl N ((hmem N).mp (hlow2 N h))
    omega
  refine ⟨fun s sequence update => add_proof_advances s sequence update, ?_, ?_⟩
  · rw [hout, hdN, List.range_eq_range']
    simp
  · have hkeysnil : mapKeys (feedAll u { next_sequence := N } l).2.pending_proofs = [] := by
      rw [List.eq_nil_iff_forall_not_mem]
      intro m hm
      obtain ⟨hml, hge⟩ := (hchar2 m).mp hm
      rw [hmem m] at hml
      rw [hdN] at hge
      omega
    have hpend : (feedAll u { next_sequence := N } l).2.pending_proofs = [] :=
      List.map_eq_nil_iff.mp hkeysnil
    simp [ProofSequencer.has_pending, hpend]

theorem claim_C1_witness :
    (([2, 0, 1] : List Nat).Perm (List.range 3)) ∧
    ((∀ (s : ProofSequencer Nat) (sequence : Nat) (update : Nat),
        (s.add_proof sequence update).2.next_to_deliver =
          s.next_to_deliver + (s.add_proof sequence update).1.length) ∧
      (feedAll (fun i => i) { next_sequence := 3 } [2, 0, 1]).1 =
        (List.range 3).map (fun i => i) ∧
      (feedAll (fun i => i) { next_sequence := 3 } [2, 0, 1]).2.has_pending = false) :=
  ⟨by decide, claim_C1_add_proof_sequencing Nat (fun i => i) 3 [2, 0, 1] (by decide)⟩

/-- Claim C5: in every `ProofSequencer` state reachable from the initial state
by any sequence of `next_sequence`, `add_proof` and `has_pending` calls, the
pending-proofs buffer contains no entry whose key is strictly less than
`next_to_deliver`, and each key occurs at most once. -/
theorem claim_C5_sequencer_invariant (U : Type) (ops : List (SeqOp U)) :
    (mapKeys (runSeqOps (ProofSequencer.new U) ops).pending_proofs).Nodup ∧
    ∀ m ∈ mapKeys (runSeqOps (ProofSequencer.new U) ops).pending_proofs,
      ¬ m < (runSeqOps (ProofSequencer.new U) ops).next_to_deliver := by
  have h := SeqInv_runSeqOps ops (ProofSequencer.new U) (SeqInv_new U)
  exact ⟨h.1, fun m hm => Nat.not_lt.mpr (Nat.le_of_lt (h.2 m hm))⟩

/-- Claim C6: calling `add_proof` with a sequence number strictly below
`next_to_deliver` (a late or already-delivered duplicate) returns the empty
list and leaves the entire reachable `ProofSequencer` state unchanged. -/
theorem claim_C6_late_duplicate_ignored (U : Type) (ops : List (SeqOp U))
    (sequence : Nat) (update : U)
    (h : sequence < (runSeqOps (ProofSequencer.new U) ops).next_to_deliver) :
    (runSeqOps (ProofSequencer.new U) ops).add_proof sequence update =
      ([], runSeqOps (ProofSequencer.new U) ops) := by
  have hInv := SeqInv_runSeqOps ops (ProofSequencer.new U) (SeqInv_new U)
  have hd : containsKey (runSeqOps (ProofSequencer.new U) ops).pending_proofs
      (runSeqOps (ProofSequencer.new U) ops).next_to_deliver = false := by
    rw [containsKey_eq_false_iff]
    intro hmem
    exact Nat.lt_irrefl _ (hInv.2 _ hmem)
  simp only [ProofSequencer.add_proof]
  rw [if_neg (Nat.not_le.mpr h), if_pos hd]

theorem claim_C6_witness :
    0 < (runSeqOps (ProofSequencer.new Nat) [SeqOp.addProof 0 7]).next_to_deliver ∧
    (runSeqOps (ProofSequencer.new Nat) [SeqOp.addProof 0 7]).add_proof 0 9 =
      ([], runSeqOps (ProofSequencer.new Nat) [SeqOp.addProof 0 7]) :=
  ⟨by decide, claim_C6_late_duplicate_ignored Nat [SeqOp.addProof 0 7] 0 9 (by decide)⟩

theorem managerOp_apply_bound (m : MultiProofManager) (op : ManagerOp)
    (hmax : 1 ≤ m.max_concurrent) (h : m.inflight ≤ m.max_concurrent) :
    (ManagerOp.apply m op).inflight ≤ m.max_concurrent ∧
    (ManagerOp.apply m op).max_concurrent = m.max_concurrent := by
  cases op with
  | spawnOrQueue input =>
    obtain ⟨mc, inf, pend⟩ := m
    simp only [MultiProofManager.max_concurrent] at hmax h
    show ((MultiProofManager.mk mc inf pend).spawn_or_queue input).1.inflight ≤ mc ∧
      ((MultiProofManager.mk mc inf pend).spawn_or_queue input).1.max_concurrent = mc
    rw [MultiProofManager.spawn_or_queue]
    split
    · exact ⟨h, rfl⟩
    · split
      · exact ⟨h, rfl⟩
      · rename_i hlt
        refine ⟨?_, rfl⟩
        show inf + 1 ≤ mc
        simp only [Nat.not_le, MultiProofManager.inflight, MultiProofManager.max_concurrent] at hlt
        omega
  | onCalculationComplete =>
    obtain ⟨mc, inf, pend⟩ := m
    simp only [MultiProofManager.max_concurrent] at hmax h
    show (MultiProofManager.mk mc inf pend).on_calculation_complete.1.inflight ≤ mc ∧
      (MultiProofManager.mk mc inf pend).on_calculation_complete.1.max_concurrent = mc
    cases pend with
    | nil => exact ⟨by show inf - 1 ≤ mc; omega, rfl⟩
    | cons input rest => exact ⟨by show inf - 1 + 1 ≤ mc; omega, rfl⟩

theorem runManagerOps_bound (ops : List ManagerOp) :
    ∀ (m : MultiProofManager), 1 ≤ m.max_concurrent → m.inflight ≤ m.max_concurrent →
    (runManagerOps m ops).inflight ≤ m.max_concurrent ∧
    (runManagerOps m ops).max_concurrent = m.max_concurrent := by
  induction ops with
  | nil => intro m _ h; exact ⟨h, rfl⟩
  | cons op ops ih =>
    intro m hmax h
    obtain ⟨h1, h2⟩ := managerOp_apply_bound m op hmax h
    obtain ⟨h3, h4⟩ := ih (ManagerOp.apply m op) (h2 ▸ hmax) (h2 ▸ h1)
    exact ⟨h2 ▸ h3, h2 ▸ h4⟩

/-- Claim C4 counterexample: at `thread_pool_size = 2` the constructor does
return a constructed manager (with `max_concurrent = 0`); only the debug
assertion fails.  Construction does not fail in release builds. -/
theorem claim_C4_counterexample :
    MultiProofManager.new 2 =
      { max_concurrent := 0, inflight := 0, pending := [] } ∧
    MultiProofManager.new_debug_assert 2 = false :=
  ⟨rfl, rfl⟩

/-- Claim C4 (amended): `MultiProofManager::new` sets
`max_concurrent = thread_pool_size - 2` (saturating at zero) and always
returns a constructed manager; the `debug_assert!(max_concurrent != 0)`
condition fails exactly when `thread_pool_size ≤ 2`, so construction panics in
debug builds only. -/
theorem claim_C4_new_spec (thread_pool_size : Nat) :
    (MultiProofManager.new thread_pool_size).max_concurrent = thread_pool_size - 2 ∧
    (MultiProofManager.new thread_pool_size).inflight = 0 ∧
    (MultiProofManager.new thread_pool_size).pending = [] ∧
    MultiProofManager.new_debug_assert thread_pool_size = decide (3 ≤ thread_pool_size) := by
  refine ⟨rfl, rfl, rfl, ?_⟩
  rw [MultiProofManager.new_debug_assert, Bool.eq_iff_iff]
  simp only [bne_iff_ne, ne_eq, decide_eq_true_eq]
  omega

/-- Claim C7: `spawn_or_queue` with an empty `proof_targets` set sends exactly
one `EmptyProof` message carrying the input's sequence number and hashed state
to the reply channel and returns; no worker is scheduled and the manager's
`inflight` counter and `pending` queue are unchanged. -/
theorem claim_C7_spawn_or_queue_empty (m : MultiProofManager) (input : MultiProofInput)
    (h : MultiProofTargets.is_empty input.proof_targets = true) :
    m.spawn_or_queue input =
      (m, [ManagerEvent.emptyProof input.proof_sequence_number
            input.hashed_state_update]) := by
  rw [MultiProofManager.spawn_or_queue, if_pos h]

theorem claim_C7_witness :
    MultiProofTargets.is_empty ([] : MultiProofTargets) = true ∧
    MultiProofManager.spawn_or_queue
        { max_concurrent := 3, inflight := 1, pending := [] }
        { source := none, hashed_state_update := HashedPostState.empty,
          proof_targets := [], proof_sequence_number := 5 } =
      ({ max_concurrent := 3, inflight := 1, pending := [] },
        [ManagerEvent.emptyProof 5 HashedPostState.empty]) :=
  ⟨rfl, claim_C7_spawn_or_queue_empty
    { max_concurrent := 3, inflight := 1, pending := [] }
    { source := none, hashed_state_update := HashedPostState.empty,
      proof_targets := [], proof_sequence_number := 5 } rfl⟩

/-- Claim C8: assuming `max_concurrent ≥ 1`, the invariant
`inflight ≤ max_concurrent` holds in every manager state reachable from
construction by any sequence of `spawn_or_queue` and `on_calculation_complete`
calls; a `spawn_or_queue` at capacity appends to the FIFO queue instead of
spawning, and `on_calculation_complete` dequeues at most one pending input. -/
theorem claim_C8_bounded_concurrency (thread_pool_size : Nat) (ops : List ManagerOp)
    (hmax : 1 ≤ (MultiProofManager.new thread_pool_size).max_concurrent) :
    (runManagerOps (MultiProofManager.new thread_pool_size) ops).inflight ≤
      (MultiProofManager.new thread_pool_size).max_concurrent ∧
    (∀ (m : MultiProofManager) (input : MultiProofInput),
      MultiProofTargets.is_empty input.proof_targets = false →
      m.max_concurrent ≤ m.inflight →
      m.spawn_or_queue input = ({ m with pending := m.pending ++ [input] }, [])) ∧
    (∀ m : MultiProofManager,
      m.on_calculation_complete.1.pending = m.pending.tail) := by
  refine ⟨?_, ?_, ?_⟩
  · exact (runManagerOps_bound ops (MultiProofManager.new thread_pool_size) hmax
      (Nat.zero_le _)).1
  · intro m input hne hful
    rw [MultiProofManager.spawn_or_queue, if_neg (by rw [hne]; intro hh; cases hh),
      if_pos hful]
  · intro m
    obtain ⟨mc, inf, pend⟩ := m
    cases pend with
    | nil => rfl
    | cons input rest => rfl

theorem claim_C8_witness :
    1 ≤ (MultiProofManager.new 3).max_concurrent ∧
    ((runManagerOps (MultiProofManager.new 3) [ManagerOp.onCalculationComplete]).inflight ≤
        (MultiProofManager.new 3).max_concurrent ∧
      (∀ (m : MultiProofManager) (input : MultiProofInput),
        MultiProofTargets.is_empty input.proof_targets = false →
        m.max_concurrent ≤ m.inflight →
        m.spawn_or_queue input = ({ m with pending := m.pending ++ [input] }, [])) ∧
      (∀ m : MultiProofManager,
        m.on_calculation_complete.1.pending = m.pending.tail)) :=
  ⟨by decide, claim_C8_bounded_concurrency 3 [ManagerOp.onCalculationComplete] (by decide)⟩

theorem evmStepAccount_untouched (keccak256 : Nat → Nat) (h : HashedPostState)
    (p : Nat × EvmAccount) (hp : p.2.is_touched = false) :
    evmStepAccount keccak256 h p = h := by
  rw [evmStepAccount]
  simp only [hp, Bool.false_eq_true, if_false]

theorem evmStepAccount_accounts_keys (keccak256 : Nat → Nat) (h : HashedPostState)
    (p : Nat × EvmAccount) (k : Nat)
    (hk : k ∈ mapKeys (evmStepAccount keccak256 h p).accounts) :
    k ∈ mapKeys h.accounts ∨ (p.2.is_touched = true ∧ k = keccak256 p.1) := by
  rw [evmStepAccount] at hk
  by_cases ht : p.2.is_touched
  · simp only [ht, if_true] at hk
    by_cases hd : p.2.is_selfdestructed
    · simp only [hd, if_true] at hk
      rcases (mem_mapKeys_insertKey _ _ _ _).mp hk with hm | rfl
      · exact Or.inl hm
      · exact Or.inr ⟨ht, rfl⟩
    · simp only [hd, Bool.false_eq_true, if_false] at hk
      split at hk <;>
      · rcases (mem_mapKeys_insertKey _ _ _ _).mp hk with hm | rfl
        · exact Or.inl hm
        · exact Or.inr ⟨ht, rfl⟩
  · simp only [Bool.not_eq_true] at ht
    simp only [ht, Bool.false_eq_true, if_false] at hk
    exact Or.inl hk

theorem evmStepAccount_storages_keys (keccak256 : Nat → Nat) (h : HashedPostState)
    (p : Nat × EvmAccount) (k : Nat)
    (hk : k ∈ mapKeys (evmStepAccount keccak256 h p).storages) :
    k ∈ mapKeys h.storages ∨ (p.2.is_touched = true ∧ k = keccak256 p.1) := by
  rw [evmStepAccount] at hk
  by_cases ht : p.2.is_touched
  · simp only [ht, if_true] at hk
    by_cases hd : p.2.is_selfdestructed
    · simp only [hd, if_true] at hk
      rcases (mem_mapKeys_insertKey _ _ _ _).mp hk with hm | rfl
      · exact Or.inl hm
      · exact Or.inr ⟨ht, rfl⟩
    · simp only [hd, Bool.false_eq_true, if_false] at hk
      split at hk
      · rcases (mem_mapKeys_insertKey _ _ _ _).mp hk with hm | rfl
        · exact Or.inl hm
        · exact Or.inr ⟨ht, rfl⟩
      · exact Or.inl hk
  · simp only [Bool.not_eq_true] at ht
    simp only [ht, Bool.false_eq_true, if_false] at hk
    exact Or.inl hk

theorem evmStepAccount_lookup_ne (keccak256 : Nat → Nat) (h : HashedPostState)
    (p : Nat × EvmAccount) (K : Nat) (hne : keccak256 p.1 ≠ K) :
    lookupKey (evmStepAccount keccak256 h p).accounts K = lookupKey h.accounts K ∧
    lookupKey (evmStepAccount keccak256 h p).storages K = lookupKey h.storages K := by
  rw [evmStepAccount]
  by_cases ht : p.2.is_touched
  · simp only [ht, if_true]
    by_cases hd : p.2.is_selfdestructed
    · simp only [hd, if_true]
      exact ⟨lookupKey_insertKey_ne _ _ _ _ (fun hh => hne hh.symm),
        lookupKey_insertKey_ne _ _ _ _ (fun hh => hne hh.symm)⟩
    · simp only [hd, Bool.false_eq_true, if_false]
      split
      · exact ⟨lookupKey_insertKey_ne _ _ _ _ (fun hh => hne hh.symm),
          lookupKey_insertKey_ne _ _ _ _ (fun hh => hne hh.symm)⟩
      · exact ⟨lookupKey_insertKey_ne _ _ _ _ (fun hh => hne hh.symm), rfl⟩
  · simp only [Bool.not_eq_true] at ht
    simp only [ht, Bool.false_eq_true, if_false]
    exact ⟨by trivial, by trivial⟩

theorem evmStepAccount_destroyed (keccak256 : Nat → Nat) (h : HashedPostState)
    (p : Nat × EvmAccount) (ht : p.2.is_touched = true)
    (hd : p.2.is_selfdestructed = true) :
    lookupKey (evmStepAccount keccak256 h p).accounts (keccak256 p.1) = some none ∧
    lookupKey (evmStepAccount keccak256 h p).storages (keccak256 p.1) =
      some (HashedStorage.new true) := by
  rw [evmStepAccount]
  simp only [ht, if_true, hd]
  exact ⟨lookupKey_insertKey_self _ _ _, lookupKey_insertKey_self _ _ _⟩

theorem evmFold_lookup_preserved (keccak256 : Nat → Nat) (rest : EvmState) :
    ∀ (h : HashedPostState) (K : Nat), (∀ q ∈ rest, keccak256 q.1 ≠ K) →
    lookupKey (rest.foldl (evmStepAccount keccak256) h).accounts K =
      lookupKey h.accounts K ∧
    lookupKey (rest.foldl (evmStepAccount keccak256) h).storages K =
      lookupKey h.storages K := by
  induction rest with
  | nil => intro h K _; exact ⟨rfl, rfl⟩
  | cons q rest ih =>
    intro h K hq
    have h1 := evmStepAccount_lookup_ne keccak256 h q K
      (hq q (List.mem_cons_self _ _))
    have h2 := ih (evmStepAccount keccak256 h q) K
      (fun x hx => hq x (List.mem_cons_of_mem _ hx))
    exact ⟨h2.1.trans h1.1, h2.2.trans h1.2⟩

theorem evmFold_accounts_keys (keccak256 : Nat → Nat) (update : EvmState) :
    ∀ (h : HashedPostState) (k : Nat),
    k ∈ mapKeys ((update.foldl (evmStepAccount keccak256) h)).accounts →
    k ∈ mapKeys h.accounts ∨ ∃ q, q ∈ update ∧ q.2.is_touched = true ∧ k = keccak256 q.1 := by
  induction update with
  | nil => intro h k hk; exact Or.inl hk
  | cons q rest ih =>
    intro h k hk
    rcases ih (evmStepAccount keccak256 h q) k hk with hm | ⟨x, hx, hxt, rfl⟩
    · rcases evmStepAccount_accounts_keys keccak256 h q k hm with hm' | ⟨ht, rfl⟩
      · exact Or.inl hm'
      · exact Or.inr ⟨q, List.mem_cons_self _ _, ht, rfl⟩
    · exact Or.inr ⟨x, List.mem_cons_of_mem _ hx, hxt, rfl⟩

theorem evmFold_storages_keys (keccak256 : Nat → Nat) (update : EvmState) :
    ∀ (h : HashedPostState) (k : Nat),
    k ∈ mapKeys ((update.foldl (evmStepAccount keccak256) h)).storages →
    k ∈ mapKeys h.storages ∨ ∃ q, q ∈ update ∧ q.2.is_touched = true ∧ k = keccak256 q.1 := by
  induction update with
  | nil => intro h k hk; exact Or.inl hk
  | cons q rest ih =>
    intro h k hk
    rcases ih (evmStepAccount keccak256 h q) k hk with hm | ⟨x, hx, hxt, rfl⟩
    · rcases evmStepAccount_storages_keys keccak256 h q k hm with hm' | ⟨ht, rfl⟩
      · exact Or.inl hm'
      · exact Or.inr ⟨q, List.mem_cons_self _ _, ht, rfl⟩
    · exact Or.inr ⟨x, List.mem_cons_of_mem _ hx, hxt, rfl⟩

theorem evmFold_destroyed (keccak256 : Nat → Nat)
    (hinj : ∀ a b, keccak256 a = keccak256 b → a = b) (update : EvmState) :
    ∀ (h : HashedPostState), (update.map Prod.fst).Nodup →
    ∀ p ∈ update, p.2.is_touched = true → p.2.is_selfdestructed = true →
    lookupKey ((update.foldl (evmStepAccount keccak256) h)).accounts (keccak256 p.1) =
      some none ∧
    lookupKey ((update.foldl (evmStepAccount keccak256) h)).storages (keccak256 p.1) =
      some (HashedStorage.new true) := by
  induction update with
  | nil => intro h _ p hp; cases hp
  | cons q rest ih =>
    intro h hnd p hp ht hd
    rcases List.mem_cons.mp hp with rfl | hmem
    · have hstep := evmStepAccount_destroyed keccak256 h p ht hd
      have hpres := evmFold_lookup_preserved keccak256 rest
        (evmStepAccount keccak256 h p) (keccak256 p.1) ?_
      · exact ⟨hpres.1.trans hstep.1, hpres.2.trans hstep.2⟩
      · intro x hx hkeq
        have : x.1 = p.1 := hinj _ _ hkeq
        have hq1 : p.1 ∈ rest.map Prod.fst := List.mem_map.mpr ⟨x, hx, this⟩
        exact (List.nodup_cons.mp hnd).1 hq1
    · exact ih (evmStepAccount keccak256 h q) (List.nodup_cons.mp hnd).2 p hmem ht hd

/-- Claim C10: in `evm_state_to_hashed_post_state`, accounts that are not
touched produce no entry at all in the resulting `HashedPostState`; and for
every touched self-destructed account, the result records a `none` account
info together with a `HashedStorage` whose `wiped` flag is true and whose slot
map is empty — the account's individual changed slot values are discarded. -/
theorem claim_C10_evm_state_conversion (keccak256 : Nat → Nat) (update : EvmState)
    (hinj : ∀ a b, keccak256 a = keccak256 b → a = b)
    (hnd : (update.map Prod.fst).Nodup) :
    (∀ k, k ∈ mapKeys (evm_state_to_hashed_post_state keccak256 update).accounts →
      ∃ p, p ∈ update ∧ p.2.is_touched = true ∧ k = keccak256 p.1) ∧
    (∀ k, k ∈ mapKeys (evm_state_to_hashed_post_state keccak256 update).storages →
      ∃ p, p ∈ update ∧ p.2.is_touched = true ∧ k = keccak256 p.1) ∧
    (∀ p, p ∈ update → p.2.is_touched = true → p.2.is_selfdestructed = true →
      lookupKey (evm_state_to_hashed_post_state keccak256 update).accounts
          (keccak256 p.1) = some none ∧
      lookupKey (evm_state_to_hashed_post_state keccak256 update).storages
          (keccak256 p.1) = some (HashedStorage.new true)) := by
  refine ⟨?_, ?_, ?_⟩
  · intro k hk
    rcases evmFold_accounts_keys keccak256 update HashedPostState.empty k hk with hm | hm
    · simp [HashedPostState.empty, mapKeys] at hm
    · exact hm
  · intro k hk
    rcases evmFold_storages_keys keccak256 update HashedPostState.empty k hk with hm | hm
    · simp [HashedPostState.empty, mapKeys] at hm
    · exact hm
  · intro p hp ht hd
    exact evmFold_destroyed keccak256 hinj update HashedPostState.empty hnd p hp ht hd

theorem claim_C10_witness :
    (∀ a b : Nat, (fun x : Nat => x) a = (fun x : Nat => x) b → a = b) ∧
    (c10ExampleState.map Prod.fst).Nodup ∧
    ((∀ k, k ∈ mapKeys (evm_state_to_hashed_post_state (fun x : Nat => x)
          c10ExampleState).accounts →
        ∃ p, p ∈ c10ExampleState ∧ p.2.is_touched = true ∧ k = (fun x : Nat => x) p.1) ∧
      (∀ k, k ∈ mapKeys (evm_state_to_hashed_post_state (fun x : Nat => x)
          c10ExampleState).storages →
        ∃ p, p ∈ c10ExampleState ∧ p.2.is_touched = true ∧ k = (fun x : Nat => x) p.1) ∧
      (∀ p, p ∈ c10ExampleState → p.2.is_touched = true → p.2.is_selfdestructed = true →
        lookupKey (evm_state_to_hashed_post_state (fun x : Nat => x)
            c10ExampleState).accounts ((fun x : Nat => x) p.1) = some none ∧
        lookupKey (evm_state_to_hashed_post_state (fun x : Nat => x)
            c10ExampleState).storages ((fun x : Nat => x) p.1) =
          some (HashedStorage.new true))) :=
  ⟨fun a b hab => hab, by decide,
    claim_C10_evm_state_conversion (fun x : Nat => x) c10ExampleState
      (fun a b hab => hab) (by decide)⟩

theorem end_check_cases (s : CoordState) (sent : List SparseTrieUpdate)
    (events : List ManagerEvent) :
    (coordEndCondition s = true ∧
      end_check s sent events =
        StepResult.cont { s with sparse_trie_tx := false } sent events) ∨
    (coordEndCondition s = false ∧
      end_check s sent events = StepResult.cont s sent events) := by
  cases h : coordEndCondition s with
  | true => exact Or.inl ⟨rfl, by rw [end_check, if_pos h]⟩
  | false => exact Or.inr ⟨rfl, by rw [end_check, if_neg (by rw [h]; intro hh; cases hh)]⟩

theorem coordEndCondition_drop_tx (s : CoordState) :
    coordEndCondition { s with sparse_trie_tx := false } = coordEndCondition s := rfl

theorem coordStep_prefetch_eq (keccak256 : Nat → Nat) (s : CoordState)
    (targets : MultiProofTargets) :
    CoordStep keccak256 s (StateRootMessage.prefetchProofs targets) =
      StepResult.cont
        (on_prefetch_proof
          { s with prefetch_proofs_received := s.prefetch_proofs_received + 1 } targets).1
        []
        (on_prefetch_proof
          { s with prefetch_proofs_received := s.prefetch_proofs_received + 1 } targets).2 :=
  rfl

theorem on_prefetch_proof_fields (s : CoordState) (targets : MultiProofTargets) :
    (on_prefetch_proof s targets).1.prefetch_proofs_received = s.prefetch_proofs_received ∧
    (on_prefetch_proof s targets).1.updates_received = s.updates_received ∧
    (on_prefetch_proof s targets).1.proofs_processed = s.proofs_processed ∧
    (on_prefetch_proof s targets).1.updates_finished = s.updates_finished ∧
    (on_prefetch_proof s targets).1.sparse_trie_tx = s.sparse_trie_tx ∧
    (on_prefetch_proof s targets).1.proof_sequencer.pending_proofs =
      s.proof_sequencer.pending_proofs :=
  ⟨rfl, rfl, rfl, rfl, rfl, rfl⟩

theorem coordStep_stateUpdate_fields (keccak256 : Nat → Nat) (s : CoordState)
    (source : Nat) (update : EvmState) :
    ∃ (s' : CoordState) (events : List ManagerEvent),
      CoordStep keccak256 s (StateRootMessage.stateUpdate source update) =
        StepResult.cont s' [] events ∧
      s'.prefetch_proofs_received = s.prefetch_proofs_received ∧
      s'.updates_received = s.updates_received + 1 ∧
      s'.proofs_processed = s.proofs_processed ∧
      s'.updates_finished = s.updates_finished ∧
      s'.sparse_trie_tx = s.sparse_trie_tx ∧
      s'.proof_sequencer.pending_proofs = s.proof_sequencer.pending_proofs :=
  ⟨_, _, rfl, rfl, rfl, rfl, rfl, rfl, rfl⟩

theorem on_proof_fields (s : CoordState) (sequence_number : Nat)
    (update : SparseTrieUpdate) :
    (on_proof s sequence_number update).2.prefetch_proofs_received =
      s.prefetch_proofs_received ∧
    (on_proof s sequence_number update).2.updates_received = s.updates_received ∧
    (on_proof s sequence_number update).2.proofs_processed = s.proofs_processed ∧
    (on_proof s sequence_number update).2.updates_finished = s.updates_finished ∧
    (on_proof s sequence_number update).2.sparse_trie_tx = s.sparse_trie_tx :=
  ⟨rfl, rfl, rfl, rfl, rfl⟩

theorem handle_proof_result_cont (s2 : CoordState) (combined : Option SparseTrieUpdate)
    (events : List ManagerEvent) (s' : CoordState) (sent : List SparseTrieUpdate)
    (events' : List ManagerEvent)
    (h : handle_proof_result s2 combined events = StepResult.cont s' sent events') :
    (coordEndCondition s2 = true ∧ s' = { s2 with sparse_trie_tx := false }) ∨
    (coordEndCondition s2 = false ∧ s' = s2) := by
  unfold handle_proof_result at h
  cases combined with
  | none =>
    rcases end_check_cases s2 [] events with ⟨hc, he⟩ | ⟨hc, he⟩ <;> rw [he] at h
    · injection h with h1 h2 h3
      exact Or.inl ⟨hc, h1.symm⟩
    · injection h with h1 h2 h3
      exact Or.inr ⟨hc, h1.symm⟩
  | some u =>
    dsimp only at h
    cases htx : s2.sparse_trie_tx with
    | false =>
      rw [if_neg (by rw [htx]; intro hh; cases hh)] at h
      cases h
    | true =>
      rw [if_pos htx] at h
      rcases end_check_cases s2 [u] events with ⟨hc, he⟩ | ⟨hc, he⟩ <;> rw [he] at h
      · injection h with h1 h2 h3
        exact Or.inl ⟨hc, h1.symm⟩
      · injection h with h1 h2 h3
        exact Or.inr ⟨hc, h1.symm⟩

theorem coordStep_emptyProof_eq (keccak256 : Nat → Nat) (s : CoordState)
    (sequence_number : Nat) (state : HashedPostState) :
    CoordStep keccak256 s (StateRootMessage.emptyProof sequence_number state) =
      handle_proof_result
        (on_proof { s with proofs_processed := s.proofs_processed + 1 } sequence_number
          { state := state, multiproof := MultiProof.empty }).2
        (on_proof { s with proofs_processed := s.proofs_processed + 1 } sequence_number
          { state := state, multiproof := MultiProof.empty }).1
        [] :=
  rfl

theorem coordStep_proofCalculated_eq (keccak256 : Nat → Nat) (s : CoordState)
    (sequence_number : Nat) (update : SparseTrieUpdate) (at0 st0 : Nat) :
    CoordStep keccak256 s
        (StateRootMessage.proofCalculated sequence_number update at0 st0) =
      handle_proof_result
        (on_proof
          { s with
            proofs_processed := s.proofs_processed + 1,
            multiproof_manager :=
              ({ s with proofs_processed := s.proofs_processed + 1
                 } : CoordState).multiproof_manager.on_calculation_complete.1 }
          sequence_number update).2
        (on_proof
          { s with
            proofs_processed := s.proofs_processed + 1,
            multiproof_manager :=
              ({ s with proofs_processed := s.proofs_processed + 1
                 } : CoordState).multiproof_manager.on_calculation_complete.1 }
          sequence_number update).1
        ({ s with proofs_processed := s.proofs_processed + 1
           } : CoordState).multiproof_manager.on_calculation_complete.2 :=
  rfl

theorem coordStep_finished_eq (keccak256 : Nat → Nat) (s : CoordState) :
    CoordStep keccak256 s StateRootMessage.finishedStateUpdates =
      end_check { s with updates_finished := true } [] [] :=
  rfl

theorem coordStep_prefetch_fields (keccak256 : Nat → Nat) (s : CoordState)
    (targets : MultiProofTargets) :
    ∃ (s' : CoordState) (events : List ManagerEvent),
      CoordStep keccak256 s (StateRootMessage.prefetchProofs targets) =
        StepResult.cont s' [] events ∧
      s'.prefetch_proofs_received = s.prefetch_proofs_received + 1 ∧
      s'.updates_received = s.updates_received ∧
      s'.proofs_processed = s.proofs_processed ∧
      s'.updates_finished = s.updates_finished ∧
      s'.sparse_trie_tx = s.sparse_trie_tx ∧
      s'.proof_sequencer.pending_proofs = s.proof_sequencer.pending_proofs :=
  ⟨_, _, rfl, rfl, rfl, rfl, rfl, rfl, rfl⟩

theorem coordEndCondition_mono (s s' : CoordState)
    (hpp : s'.proofs_processed = s.proofs_processed)
    (hle : s.updates_received + s.prefetch_proofs_received ≤
      s'.updates_received + s'.prefetch_proofs_received)
    (hfin : s'.updates_finished = s.updates_finished)
    (hpend : s'.proof_sequencer.pending_proofs = s.proof_sequencer.pending_proofs) :
    coordEndCondition s' = true → coordEndCondition s = true := by
  intro h
  rw [coordEndCondition, check_end_condition] at h ⊢
  simp only [Bool.and_eq_true, decide_eq_true_eq, Bool.not_eq_true'] at h ⊢
  obtain ⟨⟨h1, h2⟩, h3⟩ := h
  refine ⟨⟨by omega, ?_⟩, ?_⟩
  · rw [ProofSequencer.has_pending] at h2 ⊢
    rw [← hpend]
    exact h2
  · rw [← hfin]
    exact h3

theorem coordStep_drop_implies_end (keccak256 : Nat → Nat) (s s' : CoordState)
    (msg : StateRootMessage) (sent : List SparseTrieUpdate) (events : List ManagerEvent)
    (hstep : CoordStep keccak256 s msg = StepResult.cont s' sent events)
    (hopen : s.sparse_trie_tx = true) (hclosed : s'.sparse_trie_tx = false) :
    coordEndCondition s' = true := by
  cases msg with
  | prefetchProofs targets =>
    obtain ⟨t, ev, heq, hf1, hf2, hf3, hf4, htx, hpend⟩ :=
      coordStep_prefetch_fields keccak256 s targets
    rw [heq] at hstep
    injection hstep with h1 h2 h3
    subst h1
    exfalso
    rw [htx, hopen] at hclosed
    cases hclosed
  | stateUpdate source update =>
    obtain ⟨t, ev, heq, hf1, hf2, hf3, hf4, htx, hpend⟩ :=
      coordStep_stateUpdate_fields keccak256 s source update
    rw [heq] at hstep
    injection hstep with h1 h2 h3
    subst h1
    exfalso
    rw [htx, hopen] at hclosed
    cases hclosed
  | finishedStateUpdates =>
    rw [coordStep_finished_eq] at hstep
    rcases end_check_cases { s with updates_finished := true } [] [] with
      ⟨hc, he⟩ | ⟨hc, he⟩ <;> rw [he] at hstep <;> injection hstep with h1 h2 h3
    · rw [← h1, coordEndCondition_drop_tx]
      exact hc
    · exfalso
      rw [← h1] at hclosed
      dsimp only at hclosed
      rw [hopen] at hclosed
      cases hclosed
  | emptyProof sequence_number state =>
    rw [coordStep_emptyProof_eq] at hstep
    rcases handle_proof_result_cont _ _ _ _ _ _ hstep with ⟨hc, heq⟩ | ⟨hc, heq⟩
    · rw [heq, coordEndCondition_drop_tx]
      exact hc
    · exfalso
      rw [heq, (on_proof_fields _ _ _).2.2.2.2] at hclosed
      dsimp only at hclosed
      rw [hopen] at hclosed
      cases hclosed
  | proofCalculated sequence_number update at0 st0 =>
    rw [coordStep_proofCalculated_eq] at hstep
    rcases handle_proof_result_cont _ _ _ _ _ _ hstep with ⟨hc, heq⟩ | ⟨hc, heq⟩
    · rw [heq, coordEndCondition_drop_tx]
      exact hc
    · exfalso
      rw [heq, (on_proof_fields _ _ _).2.2.2.2] at hclosed
      dsimp only at hclosed
      rw [hopen] at hclosed
      cases hclosed
  | rootCalculated state_root trie_updates iterations =>
    cases hf : s.first_update_time with
    | none =>
      simp only [CoordStep, hf] at hstep; injection hstep
    | some x =>
      cases hl : s.last_update_time with
      | none => simp only [CoordStep, hf, hl] at hstep; injection hstep
      | some y => simp only [CoordStep, hf, hl] at hstep; injection hstep
  | proofCalculationError =>
    simp only [CoordStep] at hstep; injection hstep
  | rootCalculationError =>
    simp only [CoordStep] at hstep; injection hstep

theorem coordReachable_not_end (keccak256 : Nat → Nat) (thread_pool_size : Nat)
    (s : CoordState) (h : CoordReachable keccak256 thread_pool_size s) :
    s.sparse_trie_tx = true → coordEndCondition s = false := by
  induction h with
  | init => intro _; rfl
  | @step s0 s1 msg sent events hr hstep ih =>
    intro htx1
    cases msg with
    | prefetchProofs targets =>
      obtain ⟨t, ev, heq, hf1, hf2, hf3, hf4, htx, hpend⟩ :=
        coordStep_prefetch_fields keccak256 s0 targets
      rw [heq] at hstep
      injection hstep with h1 h2 h3
      subst h1
      have htx0 : s0.sparse_trie_tx = true := by rw [← htx]; exact htx1
      have hend0 := ih htx0
      cases hend : coordEndCondition t with
      | false => rfl
      | true =>
        exfalso
        have := coordEndCondition_mono s0 t hf3 (by omega) hf4 hpend hend
        rw [this] at hend0
        cases hend0
    | stateUpdate source update =>
      obtain ⟨t, ev, heq, hf1, hf2, hf3, hf4, htx, hpend⟩ :=
        coordStep_stateUpdate_fields keccak256 s0 source update
      rw [heq] at hstep
      injection hstep with h1 h2 h3
      subst h1
      have htx0 : s0.sparse_trie_tx = true := by rw [← htx]; exact htx1
      have hend0 := ih htx0
      cases hend : coordEndCondition t with
      | false => rfl
      | true =>
        exfalso
        have := coordEndCondition_mono s0 t hf3 (by omega) hf4 hpend hend
        rw [this] at hend0
        cases hend0
    | finishedStateUpdates =>
      rw [coordStep_finished_eq] at hstep
      rcases end_check_cases { s0 with updates_finished := true } [] [] with
        ⟨hc, he⟩ | ⟨hc, he⟩ <;> rw [he] at hstep <;> injection hstep with h1 h2 h3
      · exfalso
        rw [← h1] at htx1
        dsimp only at htx1
        cases htx1
      · rw [← h1]
        exact hc
    | emptyProof sequence_number state =>
      rw [coordStep_emptyProof_eq] at hstep
      rcases handle_proof_result_cont _ _ _ _ _ _ hstep with ⟨hc, heq⟩ | ⟨hc, heq⟩
      · exfalso
        rw [heq] at htx1
        dsimp only at htx1
        cases htx1
      · rw [heq, hc]
    | proofCalculated sequence_number update at0 st0 =>
      rw [coordStep_proofCalculated_eq] at hstep
      rcases handle_proof_result_cont _ _ _ _ _ _ hstep with ⟨hc, heq⟩ | ⟨hc, heq⟩
      · exfalso
        rw [heq] at htx1
        dsimp only at htx1
        cases htx1
      · rw [heq, hc]
    | rootCalculated state_root trie_updates iterations =>
      cases hf : s0.first_update_time with
      | none => simp only [CoordStep, hf] at hstep; injection hstep
      | some x =>
        cases hl : s0.last_update_time with
        | none => simp only [CoordStep, hf, hl] at hstep; injection hstep
        | some y => simp only [CoordStep, hf, hl] at hstep; injection hstep
    | proofCalculationError => simp only [CoordStep] at hstep; injection hstep
    | rootCalculationError => simp only [CoordStep] at hstep; injection hstep

theorem coordStep_end_implies_drop (keccak256 : Nat → Nat) (thread_pool_size : Nat)
    (s s' : CoordState) (msg : StateRootMessage) (sent : List SparseTrieUpdate)
    (events : List ManagerEvent)
    (hreach : CoordReachable keccak256 thread_pool_size s)
    (hstep : CoordStep keccak256 s msg = StepResult.cont s' sent events)
    (hend : coordEndCondition s' = true) : s'.sparse_trie_tx = false := by
  cases msg with
  | prefetchProofs targets =>
    obtain ⟨t, ev, heq, hf1, hf2, hf3, hf4, htx, hpend⟩ :=
      coordStep_prefetch_fields keccak256 s targets
    rw [heq] at hstep
    injection hstep with h1 h2 h3
    subst h1
    cases htxv : t.sparse_trie_tx with
    | false => rfl
    | true =>
      exfalso
      have htx0 : s.sparse_trie_tx = true := by rw [← htx]; exact htxv
      have hend0 := coordReachable_not_end keccak256 thread_pool_size s hreach htx0
      have := coordEndCondition_mono s t hf3 (by omega) hf4 hpend hend
      rw [this] at hend0
      cases hend0
  | stateUpdate source update =>
    obtain ⟨t, ev, heq, hf1, hf2, hf3, hf4, htx, hpend⟩ :=
      coordStep_stateUpdate_fields keccak256 s source update
    rw [heq] at hstep
    injection hstep with h1 h2 h3
    subst h1
    cases htxv : t.sparse_trie_tx with
    | false => rfl
    | true =>
      exfalso
      have htx0 : s.sparse_trie_tx = true := by rw [← htx]; exact htxv
      have hend0 := coordReachable_not_end keccak256 thread_pool_size s hreach htx0
      have := coordEndCondition_mono s t hf3 (by omega) hf4 hpend hend
      rw [this] at hend0
      cases hend0
  | finishedStateUpdates =>
    rw [coordStep_finished_eq] at hstep
    rcases end_check_cases { s with updates_finished := true } [] [] with
      ⟨hc, he⟩ | ⟨hc, he⟩ <;> rw [he] at hstep <;> injection hstep with h1 h2 h3
    · rw [← h1]
    · exfalso
      rw [← h1] at hend
      rw [hend] at hc
      cases hc
  | emptyProof sequence_number state =>
    rw [coordStep_emptyProof_eq] at hstep
    rcases handle_proof_result_cont _ _ _ _ _ _ hstep with ⟨hc, heq⟩ | ⟨hc, heq⟩
    · rw [heq]
    · exfalso
      rw [heq] at hend
      rw [hend] at hc
      cases hc
  | proofCalculated sequence_number update at0 st0 =>
    rw [coordStep_proofCalculated_eq] at hstep
    rcases handle_proof_result_cont _ _ _ _ _ _ hstep with ⟨hc, heq⟩ | ⟨hc, heq⟩
    · rw [heq]
    · exfalso
      rw [heq] at hend
      rw [hend] at hc
      cases hc
  | rootCalculated state_root trie_updates iterations =>
    cases hf : s.first_update_time with
    | none => simp only [CoordStep, hf] at hstep; injection hstep
    | some x =>
      cases hl : s.last_update_time with
      | none => simp only [CoordStep, hf, hl] at hstep; injection hstep
      | some y => simp only [CoordStep, hf, hl] at hstep; injection hstep
  | proofCalculationError => simp only [CoordStep] at hstep; injection hstep
  | rootCalculationError => simp only [CoordStep] at hstep; injection hstep

/-- Claim C2: the Coordinator drops (closes) the sparse-trie sender exactly
when all three conditions hold after processing a message — `updates_finished`
is true, `proofs_processed ≥ updates_received + prefetch_proofs_received`, and
the proof sequencer has no pending entries — and it is never dropped while any
of the three is false. -/
theorem claim_C2_termination_predicate (keccak256 : Nat → Nat) (thread_pool_size : Nat) :
    (∀ (s s' : CoordState) (msg : StateRootMessage) (sent : List SparseTrieUpdate)
        (events : List ManagerEvent),
      CoordStep keccak256 s msg = StepResult.cont s' sent events →
      s.sparse_trie_tx = true → s'.sparse_trie_tx = false →
      coordEndCondition s' = true) ∧
    (∀ (s s' : CoordState) (msg : StateRootMessage) (sent : List SparseTrieUpdate)
        (events : List ManagerEvent),
      CoordReachable keccak256 thread_pool_size s →
      CoordStep keccak256 s msg = StepResult.cont s' sent events →
      coordEndCondition s' = true →
      s'.sparse_trie_tx = false) :=
  ⟨fun s s' msg sent events hstep hopen hclosed =>
      coordStep_drop_implies_end keccak256 s s' msg sent events hstep hopen hclosed,
    fun s s' msg sent events hreach hstep hend =>
      coordStep_end_implies_drop keccak256 thread_pool_size s s' msg sent events
        hreach hstep hend⟩

theorem claim_C2_witness :
    CoordReachable (fun x : Nat => x) 5 (initialCoordState 5) ∧
    CoordStep (fun x : Nat => x) (initialCoordState 5)
        StateRootMessage.finishedStateUpdates =
      StepResult.cont c2DroppedState [] [] ∧
    coordEndCondition c2DroppedState = true ∧
    c2DroppedState.sparse_trie_tx = false :=
  ⟨CoordReachable.init, by decide, by decide,
    (claim_C2_termination_predicate (fun x : Nat => x) 5).2 (initialCoordState 5)
      c2DroppedState StateRootMessage.finishedStateUpdates [] []
      CoordReachable.init (by decide) (by decide)⟩

/-- Claim C3 (evaluating the code at the failing input): for a run whose only
inbound message is `FinishedStateUpdates`, the coordinator drops the
sparse-trie channel (so the updater replies with `RootCalculated`), but when
`RootCalculated` arrives the loop panics at
`first_update_time.expect("first update time should be set")` (root.rs line
953) instead of returning the successful outcome the claim describes, because
no `StateUpdate` ever set `first_update_time`. -/
theorem claim_C3_empty_block_panics :
    CoordStep (fun x : Nat => x) (initialCoordState 5)
        StateRootMessage.finishedStateUpdates =
      StepResult.cont c3StateAfterFinished [] [] ∧
    c3StateAfterFinished.sparse_trie_tx = false ∧
    c3StateAfterFinished.first_update_time = none ∧
    (∀ (state_root trie_updates iterations : Nat),
      CoordStep (fun x : Nat => x) c3StateAfterFinished
          (StateRootMessage.rootCalculated state_root trie_updates iterations) =
        StepResult.panicked "first update time should be set") :=
  ⟨by decide, rfl, rfl, fun state_root trie_updates iterations => rfl⟩

theorem foldl_slot_ops (slots : List (Nat × Nat)) :
    ∀ (init : List StorageTrieOp),
    slots.foldl (fun acc p =>
      if p.2 = 0 then acc ++ [StorageTrieOp.remove_leaf (Nibbles.unpack p.1)]
      else acc ++ [StorageTrieOp.update_leaf (Nibbles.unpack p.1)
        (encode_fixed_size p.2)]) init =
      init ++ slots.map slotOp := by
  induction slots with
  | nil => intro init; simp
  | cons p rest ih =>
    intro init
    simp only [List.foldl_cons, List.map_cons]
    by_cases hz : p.2 = 0
    · rw [if_pos hz, ih]
      simp [slotOp, hz]
    · rw [if_neg hz, ih]
      simp [slotOp, hz]

theorem storage_trie_ops_eq (st : HashedStorage) :
    storage_trie_ops st =
      (if st.wiped then [StorageTrieOp.wipe] else []) ++
        st.storage.map slotOp ++ [StorageTrieOp.root] := by
  simp only [storage_trie_ops]
  rw [foldl_slot_ops]

theorem filterMap_const_none {α β : Type} (l : List α) :
    l.filterMap (fun _ => (none : Option β)) = [] := by
  induction l with
  | nil => rfl
  | cons x l ih => rw [List.filterMap_cons_none rfl]; exact ih

theorem filterMap_storageOpAt_block (a : Nat) (p : Nat × HashedStorage) :
    List.filterMap (storageOpAt a)
      (TrieOp.take_storage_trie p.1 ::
        (storage_trie_ops p.2).map (TrieOp.storage_op p.1)) =
      if p.1 = a then storage_trie_ops p.2 else [] := by
  rw [List.filterMap_cons_none rfl, List.filterMap_map]
  by_cases hp : p.1 = a
  · rw [if_pos hp]
    have hcomp : (storageOpAt a ∘ TrieOp.storage_op p.1) = some := by
      funext op
      simp [storageOpAt, Function.comp, hp]
    rw [hcomp, List.filterMap_some]
  · rw [if_neg hp]
    have hcomp : (storageOpAt a ∘ TrieOp.storage_op p.1) = fun _ => none := by
      funext op
      simp [storageOpAt, Function.comp, hp]
    rw [hcomp, filterMap_const_none]

theorem flatten_select_nil (a : Nat) (rest : List (Nat × HashedStorage))
    (h : ∀ p ∈ rest, p.1 ≠ a) :
    (rest.map fun p => if p.1 = a then storage_trie_ops p.2 else []).flatten = [] := by
  induction rest with
  | nil => rfl
  | cons q rest ih =>
    simp only [List.map_cons, List.flatten_cons]
    rw [if_neg (h q (List.mem_cons_self _ _)), List.nil_append]
    exact ih fun p hp => h p (List.mem_cons_of_mem _ hp)

theorem flatten_select (a : Nat) (st : HashedStorage) :
    ∀ (l : List (Nat × HashedStorage)), (a, st) ∈ l → (l.map Prod.fst).Nodup →
    (l.map fun p => if p.1 = a then storage_trie_ops p.2 else []).flatten =
      storage_trie_ops st := by
  intro l
  induction l with
  | nil => intro h; cases h
  | cons q rest ih =>
    intro hmem hnd
    simp only [List.map_cons, List.flatten_cons]
    rcases List.mem_cons.mp hmem with heq | hmem'
    · rw [← heq]
      rw [if_pos rfl]
      rw [flatten_select_nil a rest ?_, List.append_nil]
      intro p hp hpa
      have hdup : a ∈ rest.map Prod.fst := List.mem_map.mpr ⟨p, hp, hpa⟩
      have hq1 : q.1 = a := by rw [← heq]
      rw [← hq1] at hdup
      exact (List.nodup_cons.mp hnd).1 hdup
    · have hqa : q.1 ≠ a := by
        intro hq
        have hdup : a ∈ rest.map Prod.fst := List.mem_map.mpr ⟨(a, st), hmem', rfl⟩
        rw [← hq] at hdup
        exact (List.nodup_cons.mp hnd).1 hdup
      rw [if_neg hqa, List.nil_append]
      exact ih hmem' (List.nodup_cons.mp hnd).2

theorem update_sparse_trie_filterMap (upd : SparseTrieUpdate) (a : Nat)
    (st : HashedStorage) (hmem : (a, st) ∈ upd.state.storages)
    (hnd : (upd.state.storages.map Prod.fst).Nodup) :
    (update_sparse_trie upd).filterMap (storageOpAt a) = storage_trie_ops st := by
  rw [update_sparse_trie, List.filterMap_cons_none rfl,
    List.filterMap_append, List.filterMap_append, List.filterMap_append,
    List.filterMap_flatten]
  have hblocks : (upd.state.storages.map fun p =>
        TrieOp.take_storage_trie p.1 ::
          (storage_trie_ops p.2).map (TrieOp.storage_op p.1)).map
        (List.filterMap (storageOpAt a)) =
      upd.state.storages.map fun p => if p.1 = a then storage_trie_ops p.2 else [] := by
    rw [List.map_map]
    apply List.map_congr_left
    intro p _
    exact filterMap_storageOpAt_block a p
  rw [hblocks, flatten_select a st _ hmem hnd]
  have h2 : List.filterMap (storageOpAt a)
      (upd.state.storages.map fun p => TrieOp.insert_storage_trie p.1) = [] := by
    rw [List.filterMap_map]
    have : (storageOpAt a ∘ fun p : Nat × HashedStorage =>
        TrieOp.insert_storage_trie p.1) = fun _ => none := by
      funext p
      rfl
    rw [this, filterMap_const_none]
  have h3 : List.filterMap (storageOpAt a)
      (upd.state.accounts.map fun p => TrieOp.update_account p.1 (p.2.getD 0)) = [] := by
    rw [List.filterMap_map]
    have : (storageOpAt a ∘ fun p : Nat × Option Nat =>
        TrieOp.update_account p.1 (p.2.getD 0)) = fun _ => none := by
      funext p
      rfl
    rw [this, filterMap_const_none]
  have h4 : List.filterMap (storageOpAt a)
      [TrieOp.calculate_below_level SPARSE_TRIE_INCREMENTAL_LEVEL] = [] := rfl
  rw [h2, h3, h4, List.append_nil, List.append_nil, List.append_nil]

/-- Claim C9: during per-batch processing in `update_sparse_trie`, each
account's storage subtrie is first wiped if flagged, then each `(slot, value)`
pair is applied in order (zero removes the leaf at the unpacked slot nibbles,
otherwise the leaf is set to the RLP-encoded fixed-size value), and the
storage root is recomputed last — all before the subtrie is re-attached; the
account updates are applied only after all storage subtries have been
re-attached. -/
theorem claim_C9_update_sparse_trie_order (upd : SparseTrieUpdate)
    (hnd : (upd.state.storages.map Prod.fst).Nodup) :
    (∀ a st, (a, st) ∈ upd.state.storages →
      (update_sparse_trie upd).filterMap (storageOpAt a) =
        (if st.wiped then [StorageTrieOp.wipe] else []) ++
          st.storage.map slotOp ++ [StorageTrieOp.root]) ∧
    (∃ l1 l3, update_sparse_trie upd =
        l1 ++ upd.state.storages.map (fun p => TrieOp.insert_storage_trie p.1) ++ l3 ∧
      (∀ op ∈ l1, op.isUpdateAccount = false ∧ op.isInsertStorage = false) ∧
      (∀ op ∈ l3, op.isStorageOp = false ∧ op.isInsertStorage = false)) := by
  constructor
  · intro a st hmem
    rw [update_sparse_trie_filterMap upd a st hmem hnd, storage_trie_ops_eq]
  · refine ⟨TrieOp.reveal_multiproof upd.multiproof ::
        (upd.state.storages.map fun p =>
          TrieOp.take_storage_trie p.1 ::
            (storage_trie_ops p.2).map (TrieOp.storage_op p.1)).flatten,
      upd.state.accounts.map (fun p => TrieOp.update_account p.1 (p.2.getD 0)) ++
        [TrieOp.calculate_below_level SPARSE_TRIE_INCREMENTAL_LEVEL], ?_, ?_, ?_⟩
    · rw [update_sparse_trie]
      simp [List.append_assoc]
    · intro op hop
      rcases List.mem_cons.mp hop with rfl | hop'
      · exact ⟨rfl, rfl⟩
      · obtain ⟨block, hblock, hopin⟩ := List.mem_flatten.mp hop'
        obtain ⟨p, _, rfl⟩ := List.mem_map.mp hblock
        rcases List.mem_cons.mp hopin with rfl | hopin'
        · exact ⟨rfl, rfl⟩
        · obtain ⟨o, _, rfl⟩ := List.mem_map.mp hopin'
          exact ⟨rfl, rfl⟩
    · intro op hop
      rcases List.mem_append.mp hop with hop' | hop'
      · obtain ⟨p, _, rfl⟩ := List.mem_map.mp hop'
        exact ⟨rfl, rfl⟩
      · rcases List.mem_singleton.mp hop' with rfl
        exact ⟨rfl, rfl⟩

theorem claim_C9_witness :
    (c9ExampleUpdate.state.storages.map Prod.fst).Nodup ∧
    ((∀ a st, (a, st) ∈ c9ExampleUpdate.state.storages →
        (update_sparse_trie c9ExampleUpdate).filterMap (storageOpAt a) =
          (if st.wiped then [StorageTrieOp.wipe] else []) ++
            st.storage.map slotOp ++ [StorageTrieOp.root]) ∧
      (∃ l1 l3, update_sparse_trie c9ExampleUpdate =
          l1 ++ c9ExampleUpdate.state.storages.map
            (fun p => TrieOp.insert_storage_trie p.1) ++ l3 ∧
        (∀ op ∈ l1, op.isUpdateAccount = false ∧ op.isInsertStorage = false) ∧
        (∀ op ∈ l3, op.isStorageOp = false ∧ op.isInsertStorage = false))) :=
  ⟨by decide, claim_C9_update_sparse_trie_order c9ExampleUpdate (by decide)⟩
